import Mathlib

/-!
Verification development for the entanglement-engine repository.

The development shallowly embeds the algorithmic core of the repository:

* entanglement_engine/core.py — parameter selection (optimal_K, crystal_vertices,
  optimal_amplitude, rhythm_sequence, entanglement_params);
* fault_tolerance.py — build_crystal_adjacency (seed-graph wiring), the per-step
  dynamics (wave_step) and the per-trial convergence loop of test_fault_tolerance;
* compare.py — run_geometry (identical step/loop code) and run_correction
  (the reactive-correction engine).

Numeric conventions: Python floats are modelled over an arbitrary linear ordered
field with a floor function (instantiated at ℚ for concrete evaluation and at ℝ
for statements that need the genuine π, sin, cos).  Transcendental functions
(sin, and the coherence measure built from complex exponentials) are taken as
parameters of the generic definitions and instantiated with the real functions
where a claim depends on their actual values.  Python integers are ℤ (or ℕ where
the source value is provably non-negative).  numpy's float modulo x % y (sign of
the divisor, here always y > 0) is x - y*⌊x/y⌋.  The int() truncation in
n_contacts = max(1, int(pool_size * 0.1)) equals pool_size / 10 (natural floor
division) for every pool size in the int64/float64-exact range; it is modelled
as such.  Random draws made by the source with np.random are passed in as
explicit parameters constrained by exactly the contract the numpy call
guarantees (e.g. choice(..., replace=False) gives pairwise distinct in-range
values).
-/

deriving instance DecidableEq for Except

namespace EntEngine

/-- Triangular number T(n) = n(n+1)/2, from core.T (integer division as in the
source, exact on these arguments). -/
def tri (n : ℕ) : ℕ := n * (n + 1) / 2

/-- Loop of core.crystal_vertices for K ≥ 3: repeat (shell := 3*shell;
v := v + shell) a given number of times; first argument is the remaining
iteration count, then the accumulator v, then the current shell size. -/
def crystalLoop : ℕ → ℕ → ℕ → ℕ
  | 0, v, _ => v
  | m + 1, v, s => crystalLoop m (v + 3 * s) (3 * s)

/-- Vertex count of the K-layer crystal, from core.crystal_vertices.
K < 2 raises ValueError (modelled as Except.error); K = 2 returns 13; for
K ≥ 3 the loop body runs K - 3 times from v = 1 + 3 + 12 = 16, shell = 12. -/
def crystalVertices (K : ℤ) : Except String ℕ :=
  if K < 2 then Except.error "K >= 2"
  else if K = 2 then Except.ok 13
  else Except.ok (crystalLoop (K - 3).toNat 16 12)

/-- Threshold table of core.optimal_K.  The selector returns one of 2..6; the
result is a natural number since every branch is a literal. -/
def optimalK (pool : ℤ) : ℕ :=
  if pool ≤ 150 then 2
  else if pool ≤ 400 then 3
  else if pool ≤ 3000 then 4
  else if pool ≤ 15000 then 5
  else 6

/-- Pulse amplitude from core.optimal_amplitude; Python float division of small
integers, modelled exactly in ℚ (3/T(3) = 1/2, 3/T(4) = 3/10, 2/T(4) = 1/5). -/
def optimalAmplitude (pool : ℤ) : ℚ :=
  if pool ≤ 100 then 3 / (tri 3 : ℚ)
  else if pool ≤ 500 then 3 / (tri 4 : ℚ)
  else 2 / (tri 4 : ℚ)

/-- Fixed 12-beat schedule from core.rhythm_sequence: (beat, layer_index). -/
def rhythmSeq : List (ℕ × ℕ) :=
  [(1, 0), (2, 1), (3, 2), (4, 0), (5, 1), (6, 2),
   (7, 0), (8, 1), (9, 2), (10, 0), (11, 1), (12, 2)]

/-- Result record of core.entanglement_params. -/
structure EngineParams where
  K : ℕ
  V : ℕ
  amplitude : ℚ
  rhythm : List (ℕ × ℕ)
deriving DecidableEq, Repr

/-- core.entanglement_params: selects K, computes V = crystal_vertices(K)
(propagating its error, which in fact never fires), amplitude and rhythm. -/
def entanglementParams (pool : ℤ) : Except String EngineParams :=
  (crystalVertices (optimalK pool)).map fun v =>
    ⟨optimalK pool, v, optimalAmplitude pool, rhythmSeq⟩

/-- Total value of crystal_vertices on the valid domain K ≥ 2. -/
def cvVal (K : ℤ) : ℕ :=
  if K = 2 then 13 else crystalLoop (K - 3).toNat 16 12

theorem crystalLoop_succ (m v s : ℕ) :
    crystalLoop (m + 1) v s = crystalLoop m v s + 3 ^ (m + 1) * s := by
  induction m generalizing v s with
  | zero => simp [crystalLoop]
  | succ m ih =>
      have h1 : crystalLoop (m + 1 + 1) v s = crystalLoop (m + 1) (v + 3 * s) (3 * s) := rfl
      rw [h1, ih (v + 3 * s) (3 * s)]
      have h2 : crystalLoop (m + 1) v s = crystalLoop m (v + 3 * s) (3 * s) := rfl
      rw [h2]
      ring

theorem crystalVertices_ok (K : ℤ) (hK : 2 ≤ K) :
    crystalVertices K = Except.ok (cvVal K) := by
  unfold crystalVertices cvVal
  rw [if_neg (by omega)]
  by_cases h2 : K = 2
  · rw [if_pos h2, if_pos h2]
  · rw [if_neg h2, if_neg h2]

theorem two_le_optimalK (pool : ℤ) : 2 ≤ optimalK pool := by
  unfold optimalK
  split_ifs <;> norm_num

theorem optimalK_le_six (pool : ℤ) : optimalK pool ≤ 6 := by
  unfold optimalK
  split_ifs <;> norm_num

theorem entanglementParams_ok (pool : ℤ) :
    entanglementParams pool =
      Except.ok ⟨optimalK pool, cvVal (optimalK pool), optimalAmplitude pool, rhythmSeq⟩ := by
  unfold entanglementParams
  rw [crystalVertices_ok (optimalK pool) (by exact_mod_cast two_le_optimalK pool)]
  rfl

/-- C7: crystal_vertices raises exactly for K < 2 and succeeds for all K ≥ 2;
on the valid domain it is strictly increasing in K and takes the closed values
13, 16, 52, 160, 484 at K = 2..6; optimal_K always returns a value ≥ 2; hence
entanglement_params succeeds for every positive pool size. -/
theorem c7_crystal_vertices_and_selector :
    (∀ K : ℤ, K < 2 → crystalVertices K = Except.error "K >= 2") ∧
    (∀ K : ℤ, 2 ≤ K → ∃ v : ℕ, crystalVertices K = Except.ok v) ∧
    (∀ K : ℤ, 2 ≤ K → ∃ a b : ℕ, crystalVertices K = Except.ok a ∧
        crystalVertices (K + 1) = Except.ok b ∧ a < b) ∧
    crystalVertices 2 = Except.ok 13 ∧ crystalVertices 3 = Except.ok 16 ∧
    crystalVertices 4 = Except.ok 52 ∧ crystalVertices 5 = Except.ok 160 ∧
    crystalVertices 6 = Except.ok 484 ∧
    (∀ pool : ℤ, 2 ≤ optimalK pool) ∧
    (∀ pool : ℤ, 0 < pool → ∃ p : EngineParams, entanglementParams pool = Except.ok p) := by
  refine ⟨?_, ?_, ?_, by decide, by decide, by decide, by decide, by decide, two_le_optimalK, ?_⟩
  · intro K hK
    unfold crystalVertices
    rw [if_pos hK]
  · intro K hK
    exact ⟨cvVal K, crystalVertices_ok K hK⟩
  · intro K hK
    refine ⟨cvVal K, cvVal (K + 1), crystalVertices_ok K hK,
      crystalVertices_ok (K + 1) (by omega), ?_⟩
    by_cases h2 : K = 2
    · subst h2; decide
    · have h3 : 3 ≤ K := by omega
      have hne : K + 1 ≠ 2 := by omega
      unfold cvVal
      rw [if_neg h2, if_neg hne]
      have htn : (K + 1 - 3).toNat = (K - 3).toNat + 1 := by omega
      rw [htn, crystalLoop_succ]
      have hp : 0 < 3 ^ ((K - 3).toNat + 1) * 12 := by positivity
      omega
  · intro pool _
    exact ⟨_, entanglementParams_ok pool⟩

/-- Witness for C7 at concrete inputs. -/
theorem c7_witness :
    crystalVertices 1 = Except.error "K >= 2" ∧
    (∃ a b : ℕ, crystalVertices 4 = Except.ok a ∧ crystalVertices 5 = Except.ok b ∧ a < b) ∧
    2 ≤ optimalK 500 ∧
    (∃ p : EngineParams, entanglementParams 7 = Except.ok p) :=
  ⟨c7_crystal_vertices_and_selector.1 1 (by decide),
   c7_crystal_vertices_and_selector.2.2.1 4 (by decide),
   c7_crystal_vertices_and_selector.2.2.2.2.2.2.2.2.1 500,
   c7_crystal_vertices_and_selector.2.2.2.2.2.2.2.2.2 7 (by decide)⟩

/-- C3 counterexample: the claim says non-positive pool_size fails immediately
with a configuration error, but entanglement_params(0) succeeds, returning the
K = 2 parameter set (pool ≤ 150 selects K = 2 with no sign check anywhere). -/
theorem c3_counterexample :
    entanglementParams 0 = Except.ok ⟨2, 13, 1/2, rhythmSeq⟩ := by
  have h1 : optimalK 0 = 2 := by norm_num [optimalK]
  have h2 : optimalAmplitude 0 = 1/2 := by norm_num [optimalAmplitude, tri]
  rw [entanglementParams_ok 0, h1, h2]
  norm_num [cvVal, crystalLoop]

/-- C3 amended: no pool_size validation exists; for every pool_size ≤ 0 the
parameter selector returns normally with the K = 2 configuration (V = 13,
amplitude 1/2), and the downstream runs start from it without any
configuration error. -/
theorem c3_amended_no_validation (pool : ℤ) (hpool : pool ≤ 0) :
    entanglementParams pool = Except.ok ⟨2, 13, 1/2, rhythmSeq⟩ := by
  have h1 : optimalK pool = 2 := by unfold optimalK; rw [if_pos (by omega)]
  have h2 : optimalAmplitude pool = 1/2 := by
    unfold optimalAmplitude
    rw [if_pos (by omega)]
    norm_num [tri]
  rw [entanglementParams_ok pool, h1, h2]
  norm_num [cvVal, crystalLoop]

/-- Witness for the amended C3 at pool_size = -7. -/
theorem c3_amended_witness :
    entanglementParams (-7) = Except.ok ⟨2, 13, 1/2, rhythmSeq⟩ :=
  c3_amended_no_validation (-7) (by decide)

/-! ## Numeric helpers shared by the dynamics embeddings -/

section NumHelpers

variable {α : Type} [LinearOrderedField α] [FloorRing α]

/-- numpy float modulo x % y for y > 0: x - y*floor(x/y), with result in [0, y). -/
def fmod (x y : α) : α := x - y * (⌊x / y⌋ : ℤ)

/-- np.sign: 1 for positive, -1 for negative, 0 for zero. -/
def sgn (x : α) : α := if 0 < x then 1 else if x < 0 then -1 else 0

theorem fmod_eq_fract_mul (x y : α) (hy : y ≠ 0) : fmod x y = y * Int.fract (x / y) := by
  unfold fmod Int.fract
  rw [mul_sub, mul_comm y (x / y), div_mul_cancel₀ x hy]

theorem fmod_nonneg (x y : α) (hy : 0 < y) : 0 ≤ fmod x y := by
  rw [fmod_eq_fract_mul x y hy.ne']
  exact mul_nonneg hy.le (Int.fract_nonneg _)

theorem fmod_lt (x y : α) (hy : 0 < y) : fmod x y < y := by
  rw [fmod_eq_fract_mul x y hy.ne']
  calc y * Int.fract (x / y) < y * 1 :=
        mul_lt_mul_of_pos_left (Int.fract_lt_one _) hy
    _ = y := mul_one y

theorem fmod_eq_self (x y : α) (h0 : 0 ≤ x) (h1 : x < y) : fmod x y = x := by
  have hy : 0 < y := lt_of_le_of_lt h0 h1
  have hfl : ⌊x / y⌋ = 0 := by
    rw [Int.floor_eq_zero_iff]
    exact ⟨div_nonneg h0 hy.le, (div_lt_one hy).mpr h1⟩
  unfold fmod
  rw [hfl]
  simp

end NumHelpers

/-! ## Convergence loop (shared shape of run_geometry, run_correction and the
per-trial loop of test_fault_tolerance) -/

/-- Result record of one run: steps taken, reported coherence, corrective-action
count (always 0 for the geometry variants) and the success flag. -/
structure RunResult (α : Type) where
  steps : ℕ
  coh : α
  corrections : ℕ
  success : Bool
deriving DecidableEq, Repr

section Loop

variable {α : Type} [LinearOrder α] {σ : Type}

/-- Worker of the convergence loop: fuel counts the remaining iterations of
the Python for-range loop, i is the absolute step index.  Each iteration
measures first; on target it returns success with steps = i + 1 and the
measured value; when the fuel runs out it returns failure with steps = i and
a fresh measurement of the current (post-final-step) state, exactly as the
source's return after the for loop. -/
def loopGo (measure : σ → α) (stepF : ℕ → σ → σ) (corrOf : σ → ℕ) (target : α) :
    ℕ → ℕ → σ → RunResult α
  | 0, i, s => ⟨i, measure s, corrOf s, false⟩
  | fuel + 1, i, s =>
      if target ≤ measure s then ⟨i + 1, measure s, corrOf s, true⟩
      else loopGo measure stepF corrOf target fuel (i + 1) (stepF i s)

/-- The convergence loop of run_geometry / run_correction / test_fault_tolerance:
for step in range(max_steps): measure; stop on target; else advance one step. -/
def convergenceLoop (measure : σ → α) (stepF : ℕ → σ → σ) (corrOf : σ → ℕ)
    (target : α) (maxSteps : ℕ) (s0 : σ) : RunResult α :=
  loopGo measure stepF corrOf target maxSteps 0 s0

/-- State after steps 0, 1, ..., k-1 have been applied to s0. -/
def iterState (stepF : ℕ → σ → σ) (s0 : σ) : ℕ → σ
  | 0 => s0
  | k + 1 => stepF k (iterState stepF s0 k)

theorem loopGo_fail (measure : σ → α) (stepF : ℕ → σ → σ) (corrOf : σ → ℕ)
    (target : α) (s0 : σ) :
    ∀ fuel i, (∀ j, j < fuel → measure (iterState stepF s0 (i + j)) < target) →
      loopGo measure stepF corrOf target fuel i (iterState stepF s0 i) =
        ⟨i + fuel, measure (iterState stepF s0 (i + fuel)),
          corrOf (iterState stepF s0 (i + fuel)), false⟩ := by
  intro fuel
  induction fuel with
  | zero => intro i h; simp [loopGo]
  | succ fuel ih =>
      intro i h
      have hlt : measure (iterState stepF s0 i) < target := by
        have h0 := h 0 (Nat.succ_pos fuel)
        simpa using h0
      unfold loopGo
      rw [if_neg (not_le.mpr hlt)]
      have hstep : stepF i (iterState stepF s0 i) = iterState stepF s0 (i + 1) := rfl
      rw [hstep]
      have hrec := ih (i + 1) (fun j hj => by
        have e : i + 1 + j = i + (j + 1) := by omega
        rw [e]
        exact h (j + 1) (by omega))
      have e2 : i + 1 + fuel = i + (fuel + 1) := by omega
      rw [e2] at hrec
      exact hrec

theorem loopGo_succeed (measure : σ → α) (stepF : ℕ → σ → σ) (corrOf : σ → ℕ)
    (target : α) (s0 : σ) (k : ℕ)
    (hk : ∀ j, j < k → measure (iterState stepF s0 j) < target)
    (hgoal : target ≤ measure (iterState stepF s0 k)) :
    ∀ fuel i, i ≤ k → k < i + fuel →
      loopGo measure stepF corrOf target fuel i (iterState stepF s0 i) =
        ⟨k + 1, measure (iterState stepF s0 k), corrOf (iterState stepF s0 k), true⟩ := by
  intro fuel
  induction fuel with
  | zero => intro i hik hk2; omega
  | succ fuel ih =>
      intro i hik hklt
      unfold loopGo
      by_cases he : i = k
      · subst he
        rw [if_pos hgoal]
      · have hikk : i < k := lt_of_le_of_ne hik he
        rw [if_neg (not_le.mpr (hk i hikk))]
        have hstep : stepF i (iterState stepF s0 i) = iterState stepF s0 (i + 1) := rfl
        rw [hstep]
        exact ih (i + 1) (by omega) (by omega)

/-- C2 amended: the loop measures before each step and stops with success,
steps = k+1 and the measured coherence at the first step index k whose
measurement reaches target; if the budget is exhausted it reports failure with
steps = maxSteps and a FRESH measurement of the post-final-step state (not the
last in-loop measurement, contrary to the claim as stated). -/
theorem c2_convergence_loop_reporting (measure : σ → α) (stepF : ℕ → σ → σ)
    (corrOf : σ → ℕ) (target : α) (maxSteps : ℕ) (s0 : σ) :
    ((∀ j, j < maxSteps → measure (iterState stepF s0 j) < target) →
      convergenceLoop measure stepF corrOf target maxSteps s0 =
        ⟨maxSteps, measure (iterState stepF s0 maxSteps),
          corrOf (iterState stepF s0 maxSteps), false⟩) ∧
    (∀ k, k < maxSteps → (∀ j, j < k → measure (iterState stepF s0 j) < target) →
      target ≤ measure (iterState stepF s0 k) →
      convergenceLoop measure stepF corrOf target maxSteps s0 =
        ⟨k + 1, measure (iterState stepF s0 k), corrOf (iterState stepF s0 k), true⟩) := by
  constructor
  · intro h
    have h0 := loopGo_fail measure stepF corrOf target s0 maxSteps 0
      (fun j hj => by simpa using h j hj)
    simpa [convergenceLoop, iterState] using h0
  · intro k hk hlt hgoal
    have h0 := loopGo_succeed measure stepF corrOf target s0 k hlt hgoal maxSteps 0
      (Nat.zero_le k) (by omega)
    simpa [convergenceLoop, iterState] using h0

/-- Witness for C2's amended loop characterization over ℤ with a counting step. -/
theorem c2_convergence_loop_reporting_witness :
    convergenceLoop (σ := ℤ) (fun s => s) (fun _ s => s + 1) (fun _ => 0) 5 3 0 =
        ⟨3, 3, 0, false⟩ ∧
    convergenceLoop (σ := ℤ) (fun s => s) (fun _ s => s + 1) (fun _ => 0) 2 5 0 =
        ⟨3, 2, 0, true⟩ := by
  constructor
  · exact ((c2_convergence_loop_reporting (σ := ℤ) (fun s => s) (fun _ s => s + 1)
      (fun _ => 0) 5 3 0).1 (by decide)).trans (by decide)
  · exact ((c2_convergence_loop_reporting (σ := ℤ) (fun s => s) (fun _ s => s + 1)
      (fun _ => 0) 2 5 0).2 2 (by decide) (by decide) (by decide)).trans (by decide)

end Loop

/-! ## Reactive-correction engine (compare.run_correction) -/

section Correction

variable {α : Type} [LinearOrderedField α] [FloorRing α]

/-- Wrap-aware signed error to reference 0: (p + pi) % (2 pi) - pi, from the
run_correction body (reference = 0.0). -/
def corrErr (piA p : α) : α := fmod (p + piA) (2 * piA) - piA

/-- Per-oscillator update of one correction step: nudge by strength * sign of
the error when |error| > threshold, wrapped into [0, 2 pi); else unchanged. -/
def corrPhase (piA threshold strength p : α) : α :=
  if threshold < |corrErr piA p| then
    fmod (p - strength * sgn (corrErr piA p)) (2 * piA)
  else p

/-- One step of run_correction over the phase list: the per-index loop building
new_phases and counting step_corrections, as a fold over the snapshot. -/
def corrStep (piA threshold strength : α) (phases : List α) : List α × ℕ :=
  phases.foldl
    (fun acc p =>
      if threshold < |corrErr piA p| then
        (acc.1 ++ [fmod (p - strength * sgn (corrErr piA p)) (2 * piA)], acc.2 + 1)
      else (acc.1 ++ [p], acc.2))
    ([], 0)

/-- Step function of the run_correction loop on state (phases, total_corrections). -/
def corrStepF (piA threshold strength : α) (_ : ℕ) (s : List α × ℕ) : List α × ℕ :=
  ((corrStep piA threshold strength s.1).1, s.2 + (corrStep piA threshold strength s.1).2)

/-- compare.run_correction: pure reactive correction against reference phase 0. -/
def runCorrection (cohFn : List α → α) (piA threshold strength target : α)
    (maxSteps : ℕ) (phases0 : List α) : RunResult α :=
  convergenceLoop (fun s => cohFn s.1) (corrStepF piA threshold strength)
    (fun s => s.2) target maxSteps (phases0, 0)

theorem corrStep_go (piA threshold strength : α) :
    ∀ (l : List α) (acc : List α × ℕ),
      l.foldl
        (fun acc p =>
          if threshold < |corrErr piA p| then
            (acc.1 ++ [fmod (p - strength * sgn (corrErr piA p)) (2 * piA)], acc.2 + 1)
          else (acc.1 ++ [p], acc.2)) acc =
      (acc.1 ++ l.map (corrPhase piA threshold strength),
        acc.2 + l.countP (fun p => decide (threshold < |corrErr piA p|))) := by
  intro l
  induction l with
  | nil => intro acc; simp
  | cons p l ih =>
      intro acc
      by_cases hp : threshold < |corrErr piA p|
      · rw [List.foldl_cons, if_pos hp, ih]
        simp only [Prod.mk.injEq, List.map_cons, List.countP_cons]
        constructor
        · simp [corrPhase, hp, List.append_assoc]
        · simp only [hp, decide_True, if_true]
          omega
      · rw [List.foldl_cons, if_neg hp, ih]
        simp only [Prod.mk.injEq, List.map_cons, List.countP_cons]
        constructor
        · simp [corrPhase, hp, List.append_assoc]
        · simp [hp]

theorem corrStep_eq (piA threshold strength : α) (phases : List α) :
    corrStep piA threshold strength phases =
      (phases.map (corrPhase piA threshold strength),
        phases.countP (fun p => decide (threshold < |corrErr piA p|))) := by
  unfold corrStep
  rw [corrStep_go]
  simp

/-- C10: per step, the signed error is wrapped into [-pi, pi); exactly the
oscillators with |error| > threshold are nudged by -strength*sign(error)
(wrapped into [0, 2 pi)) and counted once each; oscillators within threshold
are untouched; the cumulative corrective-action count never decreases. -/
theorem c10_reactive_correction (piA threshold strength : α) (hpi : 0 < piA) :
    (∀ p : α, -piA ≤ corrErr piA p ∧ corrErr piA p < piA) ∧
    (∀ phases : List α,
      (corrStep piA threshold strength phases).1 =
        phases.map (corrPhase piA threshold strength)) ∧
    (∀ p : α, threshold < |corrErr piA p| →
        corrPhase piA threshold strength p =
          fmod (p - strength * sgn (corrErr piA p)) (2 * piA) ∧
        0 ≤ corrPhase piA threshold strength p ∧
        corrPhase piA threshold strength p < 2 * piA) ∧
    (∀ p : α, |corrErr piA p| ≤ threshold → corrPhase piA threshold strength p = p) ∧
    (∀ phases : List α,
      (corrStep piA threshold strength phases).2 =
        phases.countP (fun p => decide (threshold < |corrErr piA p|))) ∧
    (∀ (phases0 : List α) (m : ℕ),
      (iterState (corrStepF piA threshold strength) (phases0, 0) m).2 ≤
        (iterState (corrStepF piA threshold strength) (phases0, 0) (m + 1)).2) := by
  have h2pi : (0:α) < 2 * piA := by linarith
  refine ⟨?_, ?_, ?_, ?_, ?_, ?_⟩
  · intro p
    constructor
    · have := fmod_nonneg (p + piA) (2 * piA) h2pi
      unfold corrErr
      linarith
    · have := fmod_lt (p + piA) (2 * piA) h2pi
      unfold corrErr
      linarith
  · intro phases; rw [corrStep_eq]
  · intro p hp
    unfold corrPhase
    rw [if_pos hp]
    exact ⟨rfl, fmod_nonneg _ _ h2pi, fmod_lt _ _ h2pi⟩
  · intro p hp
    unfold corrPhase
    rw [if_neg (not_lt.mpr hp)]
  · intro phases; rw [corrStep_eq]
  · intro phases0 m
    have hstep : iterState (corrStepF piA threshold strength) (phases0, 0) (m + 1) =
        corrStepF piA threshold strength m
          (iterState (corrStepF piA threshold strength) (phases0, 0) m) := rfl
    rw [hstep]
    unfold corrStepF
    exact Nat.le_add_right _ _

/-- Witness for C10 at pi = 3, threshold = 0, strength = 1, phase 4 over ℚ. -/
theorem c10_reactive_correction_witness :
    (-(3:ℚ) ≤ corrErr 3 4 ∧ corrErr (3:ℚ) 4 < 3) ∧
    ((0:ℚ) < |corrErr (3:ℚ) 4| →
      corrPhase (3:ℚ) 0 1 4 = fmod (4 - 1 * sgn (corrErr (3:ℚ) 4)) (2 * 3) ∧
      0 ≤ corrPhase (3:ℚ) 0 1 4 ∧ corrPhase (3:ℚ) 0 1 4 < 2 * 3) ∧
    (iterState (corrStepF (3:ℚ) 0 1) ([4], 0) 1).2 ≤
      (iterState (corrStepF (3:ℚ) 0 1) ([4], 0) 2).2 :=
  ⟨(c10_reactive_correction (3:ℚ) 0 1 (by norm_num)).1 4,
   (c10_reactive_correction (3:ℚ) 0 1 (by norm_num)).2.2.1 4,
   (c10_reactive_correction (3:ℚ) 0 1 (by norm_num)).2.2.2.2.2 [4] 1⟩

end Correction

/-! ## Loop unfolding helpers -/

section LoopUnfold

variable {α : Type} [LinearOrder α] {σ : Type}

theorem loopGo_zero (measure : σ → α) (stepF : ℕ → σ → σ) (corrOf : σ → ℕ)
    (target : α) (i : ℕ) (s : σ) :
    loopGo measure stepF corrOf target 0 i s = ⟨i, measure s, corrOf s, false⟩ := rfl

theorem loopGo_succ (measure : σ → α) (stepF : ℕ → σ → σ) (corrOf : σ → ℕ)
    (target : α) (fuel i : ℕ) (s : σ) :
    loopGo measure stepF corrOf target (fuel + 1) i s =
      if target ≤ measure s then ⟨i + 1, measure s, corrOf s, true⟩
      else loopGo measure stepF corrOf target fuel (i + 1) (stepF i s) := rfl

theorem loopGo_one (measure : σ → α) (stepF : ℕ → σ → σ) (corrOf : σ → ℕ)
    (target : α) (i : ℕ) (s : σ) :
    loopGo measure stepF corrOf target 1 i s =
      if target ≤ measure s then ⟨i + 1, measure s, corrOf s, true⟩
      else ⟨i + 1, measure (stepF i s), corrOf (stepF i s), false⟩ := rfl

end LoopUnfold

/-! ## Real-number instantiation: coherence (Kuramoto order parameter) and the
counterexample run for C2 -/

/-- Kuramoto order parameter |mean(exp(i*phase))| over a phase list, from
compare.coherence, with the genuine complex exponential. -/
noncomputable def cohListR (l : List ℝ) : ℝ :=
  Complex.abs ((l.map fun (p : ℝ) => Complex.exp ((p : ℂ) * Complex.I)).sum / (l.length : ℂ))

theorem cohListR_pair (θ : ℝ) :
    cohListR [0, θ] = Complex.abs (1 + Complex.exp ((θ : ℂ) * Complex.I)) / 2 := by
  unfold cohListR
  rw [List.map_cons, List.map_cons, List.map_nil, List.sum_cons, List.sum_cons, List.sum_nil]
  simp only [Complex.ofReal_zero, zero_mul, Complex.exp_zero, add_zero]
  rw [map_div₀]
  norm_num

theorem sq_abs_one_add_exp (θ : ℝ) :
    Complex.abs (1 + Complex.exp ((θ : ℂ) * Complex.I)) ^ 2 = 2 + 2 * Real.cos θ := by
  rw [Complex.sq_abs]
  have h : (1 : ℂ) + Complex.exp ((θ : ℂ) * Complex.I) =
      ((1 + Real.cos θ : ℝ) : ℂ) + ((Real.sin θ : ℝ) : ℂ) * Complex.I := by
    rw [Complex.exp_mul_I, ← Complex.ofReal_cos, ← Complex.ofReal_sin]
    push_cast
    ring
  rw [h, Complex.normSq_add_mul_I]
  nlinarith [Real.sin_sq_add_cos_sq θ]

theorem cohListR_pair_le_one (θ : ℝ) : cohListR [0, θ] ≤ 1 := by
  rw [cohListR_pair]
  have h1 : Complex.abs (1 + Complex.exp ((θ : ℂ) * Complex.I)) ≤ 2 := by
    calc Complex.abs (1 + Complex.exp ((θ : ℂ) * Complex.I)) ≤
          Complex.abs 1 + Complex.abs (Complex.exp ((θ : ℂ) * Complex.I)) :=
            Complex.abs.add_le _ _
      _ = 2 := by rw [map_one, Complex.abs_exp_ofReal_mul_I]; norm_num
  linarith

theorem cohListR_pair_cos_eq (a b : ℝ) (h : cohListR [0, a] = cohListR [0, b]) :
    Real.cos a = Real.cos b := by
  rw [cohListR_pair, cohListR_pair] at h
  have h2 : Complex.abs (1 + Complex.exp ((a : ℂ) * Complex.I)) =
      Complex.abs (1 + Complex.exp ((b : ℂ) * Complex.I)) := by linarith
  have h3 := congrArg (fun x : ℝ => x ^ 2) h2
  simp only [sq_abs_one_add_exp] at h3
  linarith

theorem corrErr_pi_zero : corrErr Real.pi 0 = 0 := by
  unfold corrErr
  rw [zero_add, fmod_eq_self Real.pi (2 * Real.pi) Real.pi_pos.le (by linarith [Real.pi_pos])]
  ring

theorem corrErr_pi_three : corrErr Real.pi 3 = 3 := by
  unfold corrErr
  have h3 : (3 : ℝ) < Real.pi := Real.pi_gt_three
  rw [fmod_eq_self (3 + Real.pi) (2 * Real.pi) (by linarith [Real.pi_pos]) (by linarith)]
  ring

theorem corrStep_pi_eval :
    corrStep Real.pi (1/2) (3/10) [0, 3] = ([0, 27/10], 1) := by
  rw [corrStep_eq]
  have h0 : corrPhase Real.pi (1/2) (3/10) 0 = 0 := by
    unfold corrPhase
    rw [corrErr_pi_zero]
    norm_num
  have h3 : corrPhase Real.pi (1/2) (3/10) 3 = 27/10 := by
    unfold corrPhase
    rw [corrErr_pi_three, if_pos (by norm_num)]
    have hs : sgn (3 : ℝ) = 1 := by unfold sgn; rw [if_pos (by norm_num)]
    rw [hs]
    have h27 : (3 : ℝ) - 3/10 * 1 = 27/10 := by norm_num
    rw [h27]
    have hpi : (3 : ℝ) < Real.pi := Real.pi_gt_three
    rw [fmod_eq_self (27/10) (2 * Real.pi) (by norm_num) (by linarith)]
  simp only [List.map_cons, List.map_nil, List.countP_cons, List.countP_nil, h0, h3,
    corrErr_pi_zero, corrErr_pi_three, Prod.mk.injEq]
  norm_num

/-- C2 counterexample: the reactive run with initial phases [0, 3], target 2
(never reachable since coherence ≤ 1) and max_steps = 1 reports, on failure,
the coherence of the post-final-step state [0, 2.7] — which differs from the
only in-loop measurement, taken at [0, 3].  So the failure report is a fresh
measurement, not the last-measured value as the claim states. -/
theorem c2_counterexample_fresh_measurement :
    runCorrection cohListR Real.pi (1/2) (3/10) 2 1 [0, 3] =
      ⟨1, cohListR [0, 27/10], 1, false⟩ ∧
    cohListR [0, 27/10] ≠ cohListR [0, 3] := by
  constructor
  · have hnot : ¬ ((2 : ℝ) ≤ cohListR [0, 3]) :=
      not_le.mpr (lt_of_le_of_lt (cohListR_pair_le_one 3) (by norm_num))
    unfold runCorrection convergenceLoop
    rw [loopGo_one, if_neg hnot]
    unfold corrStepF
    rw [corrStep_pi_eval]
    norm_num
  · intro h
    have hc := cohListR_pair_cos_eq (27/10) 3 h
    have hlt : Real.cos 3 < Real.cos (27/10) :=
      Real.cos_lt_cos_of_nonneg_of_le_pi (by norm_num) Real.pi_gt_three.le (by norm_num)
    linarith

/-! ## Layer index structure of build_crystal_adjacency

The source builds positions sequentially (center; triad when K >= 3; icosa;
then K-3 shells of sizes 36, 108, ...) and records each layer's index range
in the layer_indices dict.  The index ranges depend only on the counts, not on
the geometric coordinates, and are reproduced here exactly. -/

/-- Shell layers added by the loop (for layer in range(K-3)): names shell_4,
shell_5, ..., each of size 3 x previous, indices continuing from st. -/
def shellIdxLayers : ℕ → ℕ → ℕ → ℕ → List (String × List ℕ)
  | 0, _, _, _ => []
  | fuel + 1, ln, st, sz =>
      ("shell_" ++ toString ln, List.range' st (3 * sz)) ::
        shellIdxLayers fuel (ln + 1) (st + 3 * sz) (3 * sz)

/-- Total vertex count contributed by the shells. -/
def shellTotal : ℕ → ℕ → ℕ
  | 0, _ => 0
  | fuel + 1, sz => 3 * sz + shellTotal fuel (3 * sz)

/-- layer_indices of build_crystal_adjacency(K): center [0]; triad [1,2,3]
when K >= 3; icosa (12 indices); then the shells. -/
def crystalLayers (K : ℕ) : List (String × List ℕ) :=
  if 3 ≤ K then
    ("center", [0]) :: ("triad", [1, 2, 3]) :: ("icosa", List.range' 4 12) ::
      shellIdxLayers (K - 3) 4 16 12
  else [("center", [0]), ("icosa", List.range' 1 12)]

/-- n_frozen = len(positions) of build_crystal_adjacency(K). -/
def nFrozenOf (K : ℕ) : ℕ := if 3 ≤ K then 16 + shellTotal (K - 3) 12 else 13

theorem shellIdxLayers_bounds :
    ∀ (fuel ln st sz : ℕ) (pr : String × List ℕ), pr ∈ shellIdxLayers fuel ln st sz →
      ∀ i ∈ pr.2, st ≤ i ∧ i < st + shellTotal fuel sz := by
  intro fuel
  induction fuel with
  | zero => intro ln st sz pr hpr; simp [shellIdxLayers] at hpr
  | succ fuel ih =>
      intro ln st sz pr hpr i hi
      rw [shellIdxLayers] at hpr
      rcases List.mem_cons.mp hpr with h | h
      · subst h
        simp only [List.mem_range'_1] at hi
        have : shellTotal (fuel + 1) sz = 3 * sz + shellTotal fuel (3 * sz) := rfl
        omega
      · have := ih (ln + 1) (st + 3 * sz) (3 * sz) pr h i hi
        have h2 : shellTotal (fuel + 1) sz = 3 * sz + shellTotal fuel (3 * sz) := rfl
        omega

theorem thirteen_le_nFrozenOf (K : ℕ) : 13 ≤ nFrozenOf K := by
  unfold nFrozenOf; split_ifs <;> omega

theorem sixteen_le_nFrozenOf (K : ℕ) (h : 3 ≤ K) : 16 ≤ nFrozenOf K := by
  unfold nFrozenOf; rw [if_pos h]; omega

theorem crystalLayers_lookup_center (K : ℕ) :
    (crystalLayers K).lookup "center" = some [0] := by
  unfold crystalLayers; split_ifs <;> rfl

theorem crystalLayers_lookup_triad_ge3 (K : ℕ) (h : 3 ≤ K) :
    (crystalLayers K).lookup "triad" = some [1, 2, 3] := by
  unfold crystalLayers; rw [if_pos h]; rfl

theorem crystalLayers_lookup_triad_lt3 (K : ℕ) (h : ¬ 3 ≤ K) :
    (crystalLayers K).lookup "triad" = none := by
  unfold crystalLayers; rw [if_neg h]; rfl

theorem crystalLayers_lookup_icosa_ge3 (K : ℕ) (h : 3 ≤ K) :
    (crystalLayers K).lookup "icosa" = some (List.range' 4 12) := by
  unfold crystalLayers; rw [if_pos h]; rfl

theorem crystalLayers_lookup_icosa_lt3 (K : ℕ) (h : ¬ 3 ≤ K) :
    (crystalLayers K).lookup "icosa" = some (List.range' 1 12) := by
  unfold crystalLayers; rw [if_neg h]; rfl

/-! ## Per-step dynamics (wave_step of test_fault_tolerance; the identical
inline step of run_geometry) -/

/-- Pointwise update of a buffer, modelling new_phases[i] = v. -/
def upd {β : Type} (f : ℕ → β) (k : ℕ) (v : β) : ℕ → β :=
  fun j => if j = k then v else f j

/-- layer_keys = ['center', 'triad', 'icosa'] of the step function. -/
def layerKeys : List String := ["center", "triad", "icosa"]

/-- Indices pulsed at a given step: beat = step % 12, active layer index from
the rhythm schedule, looked up in layer_keys (the bound check active_layer <
len(layer_keys)) and then in layer_indices (the key-in-dict check); anything
failing either check pulses nothing. -/
def pulseTargets (rhythm : List (ℕ × ℕ)) (layers : List (String × List ℕ))
    (step : ℕ) : List ℕ :=
  ((layerKeys.get? (rhythm.getD (step % 12) (0, 0)).2).bind
    (fun key => layers.lookup key)).getD []

section WaveStep

variable {α : Type} [LinearOrderedField α] [FloorRing α]

/-- Pulse direction: +1 on even 12-step cycles, -1 on odd ones. -/
def direction (step : ℕ) : α := if (step / 12) % 2 = 0 then 1 else -1

/-- Rhythm pulse: new_phases[i] = (phases[i] + direction*amplitude) % 2pi for
each i in the active layer, reading the pre-step snapshot. -/
def applyPulse (piA amp : α) (snap : ℕ → α) (dir : α) (targets : List ℕ)
    (buf : ℕ → α) : ℕ → α :=
  targets.foldl (fun b i => upd b i (fmod (snap i + dir * amp) (2 * piA))) buf

/-- Kuramoto coupling value for oscillator i, all reads from the snapshot:
(phases[i] + 0.1 + (0.3/deg(i)) * sum sin(phases[j] - phases[i])) % 2pi. -/
def couplingVal (piA : α) (sinA : α → α) (adj : ℕ → List ℕ) (snap : ℕ → α)
    (i : ℕ) : α :=
  fmod (snap i + 1/10 + 3/10 / ((adj i).length : α) *
    ((adj i).map fun j => sinA (snap j - snap i)).sum) (2 * piA)

/-- Coupling loop: for i in range(n_total), skipping frozen i and i without
neighbors, writing couplingVal into the buffer. -/
def applyCoupling (piA : α) (sinA : α → α) (nFrozen nTotal : ℕ)
    (adj : ℕ → List ℕ) (snap : ℕ → α) (buf : ℕ → α) : ℕ → α :=
  (List.range nTotal).foldl
    (fun b i =>
      if i < nFrozen then b
      else if adj i = [] then b
      else upd b i (couplingVal piA sinA adj snap i)) buf

/-- One step of the dynamics: copy the snapshot, apply the rhythm pulse, then
the coupling loop; both phases read only the pre-step snapshot. -/
def waveStep (piA : α) (sinA : α → α) (amp : α) (rhythm : List (ℕ × ℕ))
    (layers : List (String × List ℕ)) (nFrozen nTotal : ℕ) (adj : ℕ → List ℕ)
    (step : ℕ) (phases : ℕ → α) : ℕ → α :=
  applyCoupling piA sinA nFrozen nTotal adj phases
    (applyPulse piA amp phases (direction step) (pulseTargets rhythm layers step) phases)

theorem applyPulse_apply (piA amp : α) (snap : ℕ → α) (dir : α)
    (targets : List ℕ) (buf : ℕ → α) (k : ℕ) :
    applyPulse piA amp snap dir targets buf k =
      if k ∈ targets then fmod (snap k + dir * amp) (2 * piA) else buf k := by
  induction targets generalizing buf with
  | nil => simp [applyPulse]
  | cons a l ih =>
      rw [applyPulse, List.foldl_cons]
      change applyPulse piA amp snap dir l (upd buf a _) k = _
      rw [ih]
      by_cases hkl : k ∈ l
      · simp [hkl]
      · by_cases hka : k = a
        · subst hka
          simp [hkl, upd]
        · simp [hkl, hka, upd]

theorem applyCoupling_apply (piA : α) (sinA : α → α) (nFrozen nTotal : ℕ)
    (adj : ℕ → List ℕ) (snap : ℕ → α) (buf : ℕ → α) (k : ℕ) :
    applyCoupling piA sinA nFrozen nTotal adj snap buf k =
      if k < nTotal ∧ ¬ k < nFrozen ∧ adj k ≠ [] then couplingVal piA sinA adj snap k
      else buf k := by
  suffices h : ∀ (l : List ℕ) (buf : ℕ → α),
      (l.foldl (fun b i =>
        if i < nFrozen then b
        else if adj i = [] then b
        else upd b i (couplingVal piA sinA adj snap i)) buf) k =
      if k ∈ l ∧ ¬ k < nFrozen ∧ adj k ≠ [] then couplingVal piA sinA adj snap k
      else buf k by
    have h2 := h (List.range nTotal) buf
    simpa [applyCoupling, List.mem_range] using h2
  intro l
  induction l with
  | nil => intro buf; simp
  | cons a l ih =>
      intro buf
      rw [List.foldl_cons, ih]
      by_cases hkl : k ∈ l ∧ ¬ k < nFrozen ∧ adj k ≠ []
      · rw [if_pos hkl, if_pos ⟨List.mem_cons_of_mem a hkl.1, hkl.2⟩]
      · rw [if_neg hkl]
        by_cases hka : k = a
        · subst hka
          by_cases h1 : k < nFrozen
          · rw [if_pos h1, if_neg (by tauto)]
          · rw [if_neg h1]
            by_cases h2 : adj k = []
            · rw [if_pos h2, if_neg (by tauto)]
            · rw [if_neg h2]
              rw [if_pos ⟨List.mem_cons_self k l, h1, h2⟩]
              simp [upd]
        · have hknl : ¬ (k ∈ a :: l ∧ ¬ k < nFrozen ∧ adj k ≠ []) := by
            intro hcon
            rcases List.mem_cons.mp hcon.1 with h | h
            · exact hka h
            · exact hkl ⟨h, hcon.2⟩
          rw [if_neg hknl]
          split_ifs <;> simp [upd, hka]

theorem waveStep_apply (piA : α) (sinA : α → α) (amp : α) (rhythm : List (ℕ × ℕ))
    (layers : List (String × List ℕ)) (nFrozen nTotal : ℕ) (adj : ℕ → List ℕ)
    (step : ℕ) (phases : ℕ → α) (k : ℕ) :
    waveStep piA sinA amp rhythm layers nFrozen nTotal adj step phases k =
      if k < nTotal ∧ ¬ k < nFrozen ∧ adj k ≠ [] then
        couplingVal piA sinA adj phases k
      else if k ∈ pulseTargets rhythm layers step then
        fmod (phases k + direction step * amp) (2 * piA)
      else phases k := by
  unfold waveStep
  rw [applyCoupling_apply, applyPulse_apply]

/-- C5: every non-frozen oscillator i with at least one neighbor is updated to
(phases[i] + 0.1 + (0.3/deg i) * sum of sin(phases[j] - phases[i])) mod 2pi,
with every read taken from the pre-step snapshot (the unprimed phases). -/
theorem c5_coupling_update_snapshot (piA : α) (sinA : α → α) (amp : α)
    (rhythm : List (ℕ × ℕ)) (layers : List (String × List ℕ))
    (nFrozen nTotal : ℕ) (adj : ℕ → List ℕ) (step : ℕ) (phases : ℕ → α) (i : ℕ)
    (h1 : nFrozen ≤ i) (h2 : i < nTotal) (h3 : adj i ≠ []) :
    waveStep piA sinA amp rhythm layers nFrozen nTotal adj step phases i =
      fmod (phases i + 1/10 + 3/10 / ((adj i).length : α) *
        ((adj i).map fun j => sinA (phases j - phases i)).sum) (2 * piA) := by
  rw [waveStep_apply, if_pos ⟨h2, not_lt.mpr h1, h3⟩]
  rfl

/-- Witness for C5: a 2-oscillator system over ℚ (one frozen, one fluid with a
single neighbor), sinA the identity. -/
theorem c5_coupling_update_snapshot_witness :
    waveStep (3:ℚ) (fun x => x) 1 rhythmSeq [] 1 2
      (fun i => if i = 1 then [0] else []) 0 (fun i => (i : ℚ)) 1 = 4/5 := by
  have h := c5_coupling_update_snapshot (3:ℚ) (fun x => x) 1 rhythmSeq [] 1 2
    (fun i => if i = 1 then [0] else []) 0 (fun i => (i : ℚ)) 1
    (by norm_num) (by norm_num) (by norm_num)
  rw [h]
  norm_num
  rw [fmod_eq_self (4/5) 6 (by norm_num) (by norm_num)]

theorem pulseTargets_crystal_bounds (rhythm : List (ℕ × ℕ)) (K step : ℕ) :
    ∀ i ∈ pulseTargets rhythm (crystalLayers K) step, i < nFrozenOf K ∧ i < 16 := by
  intro i hi
  unfold pulseTargets at hi
  cases hg : layerKeys.get? (rhythm.getD (step % 12) (0, 0)).2 with
  | none => rw [hg] at hi; simp at hi
  | some key =>
      rw [hg] at hi
      simp only [Option.some_bind] at hi
      have hkey : key ∈ layerKeys := List.get?_mem hg
      have h13 := thirteen_le_nFrozenOf K
      have hk3 : key = "center" ∨ key = "triad" ∨ key = "icosa" := by
        simpa [layerKeys] using hkey
      rcases hk3 with h | h | h <;> subst h
      · rw [crystalLayers_lookup_center] at hi
        simp at hi
        omega
      · by_cases h3 : 3 ≤ K
        · rw [crystalLayers_lookup_triad_ge3 K h3] at hi
          have h16 := sixteen_le_nFrozenOf K h3
          simp at hi
          rcases hi with h | h | h <;> omega
        · rw [crystalLayers_lookup_triad_lt3 K h3] at hi
          simp at hi
      · by_cases h3 : 3 ≤ K
        · rw [crystalLayers_lookup_icosa_ge3 K h3] at hi
          have h16 := sixteen_le_nFrozenOf K h3
          simp [List.mem_range'_1] at hi
          omega
        · rw [crystalLayers_lookup_icosa_lt3 K h3] at hi
          have hn : nFrozenOf K = 13 := by unfold nFrozenOf; rw [if_neg h3]
          simp [List.mem_range'_1] at hi
          omega

/-- C6: (a) a frozen oscillator is never touched by coupling: it changes
exactly by the pulse when it is in the active layer, else keeps its phase;
(b) a fluid oscillator is never touched by the pulse: its new value is the
coupling value (or unchanged without neighbors); (c) vertices of shell layers
(shell_4 and beyond) are pulsed on no beat and are unchanged by every step. -/
theorem c6_frozen_fluid_separation (piA : α) (sinA : α → α) (amp : α)
    (rhythm : List (ℕ × ℕ)) (K nTotal : ℕ) (adj : ℕ → List ℕ) (step : ℕ)
    (phases : ℕ → α) :
    (∀ i, i < nFrozenOf K →
      waveStep piA sinA amp rhythm (crystalLayers K) (nFrozenOf K) nTotal adj step phases i =
        if i ∈ pulseTargets rhythm (crystalLayers K) step then
          fmod (phases i + direction step * amp) (2 * piA)
        else phases i) ∧
    (∀ i, nFrozenOf K ≤ i →
      waveStep piA sinA amp rhythm (crystalLayers K) (nFrozenOf K) nTotal adj step phases i =
        if i < nTotal ∧ adj i ≠ [] then couplingVal piA sinA adj phases i
        else phases i) ∧
    (∀ pr, pr ∈ shellIdxLayers (K - 3) 4 16 12 → ∀ i, i ∈ pr.2 →
      waveStep piA sinA amp rhythm (crystalLayers K) (nFrozenOf K) nTotal adj step phases i =
        phases i) := by
  refine ⟨?_, ?_, ?_⟩
  · intro i hi
    rw [waveStep_apply, if_neg (by tauto)]
  · intro i hi
    rw [waveStep_apply]
    have hnp : i ∉ pulseTargets rhythm (crystalLayers K) step := by
      intro hmem
      have := (pulseTargets_crystal_bounds rhythm K step i hmem).1
      omega
    by_cases hc : i < nTotal ∧ adj i ≠ []
    · rw [if_pos ⟨hc.1, not_lt.mpr hi, hc.2⟩, if_pos hc]
    · rw [if_neg (by tauto), if_neg hc, if_neg hnp]
  · intro pr hpr i hi
    have hK4 : 1 ≤ K - 3 := by
      by_contra hcon
      have h0 : K - 3 = 0 := by omega
      rw [h0] at hpr
      simp [shellIdxLayers] at hpr
    have h3 : 3 ≤ K := by omega
    have hb := shellIdxLayers_bounds (K - 3) 4 16 12 pr hpr i hi
    have hif : i < nFrozenOf K := by
      unfold nFrozenOf
      rw [if_pos h3]
      omega
    have hnp : i ∉ pulseTargets rhythm (crystalLayers K) step := by
      intro hmem
      have := (pulseTargets_crystal_bounds rhythm K step i hmem).2
      omega
    rw [waveStep_apply, if_neg (by tauto), if_neg hnp]

/-- Witness for C6 at K = 4 over ℚ: the center is pulsed on beat 0, a fluid
oscillator without neighbors is unchanged, and a shell_4 vertex is unchanged. -/
theorem c6_frozen_fluid_separation_witness :
    waveStep (3:ℚ) (fun x => x) 1 rhythmSeq (crystalLayers 4) (nFrozenOf 4) 53
      (fun _ => []) 0 (fun _ => 0) 0 = 1 ∧
    waveStep (3:ℚ) (fun x => x) 1 rhythmSeq (crystalLayers 4) (nFrozenOf 4) 53
      (fun _ => []) 0 (fun _ => 0) 52 = 0 ∧
    waveStep (3:ℚ) (fun x => x) 1 rhythmSeq (crystalLayers 4) (nFrozenOf 4) 53
      (fun _ => []) 0 (fun _ => 0) 20 = 0 := by
  have h := c6_frozen_fluid_separation (3:ℚ) (fun x => x) 1 rhythmSeq 4 53
    (fun _ => []) 0 (fun _ => 0)
  refine ⟨?_, ?_, ?_⟩
  · have h0 := h.1 0 (by norm_num [nFrozenOf, shellTotal])
    rw [h0, if_pos (by decide)]
    simp only [direction]
    norm_num
    rw [fmod_eq_self 1 6 (by norm_num) (by norm_num)]
  · have h52 := h.2.1 52 (by norm_num [nFrozenOf, shellTotal])
    rw [h52, if_neg (by simp)]
  · have hsh := h.2.2 ("shell_4", List.range' 16 36) (by decide) 20 (by decide)
    exact hsh

end WaveStep

/-! ## Seed-graph wiring of build_crystal_adjacency

The adjacency is built from the vertex positions only through pairwise
Euclidean distance comparisons; the metric (whose values are irrational
algebraic/trigonometric reals) is abstracted as a parameter dist over a linear
order, exactly as consumed by the sort of (dist(i,j), j) pairs.  Python's
list.sort on tuples is a stable sort under lexicographic order; since the
second components are pairwise distinct the sorted list is unique, and an
insertion sort under the same order produces it. -/

/-- One symmetric edge insertion: adj[a].append(b); adj[b].append(a). -/
def addEdgeU (f : ℕ → List ℕ) (a b : ℕ) : ℕ → List ℕ :=
  let f1 := upd f a (f a ++ [b])
  upd f1 b (f1 b ++ [a])

theorem addEdgeU_apply (f : ℕ → List ℕ) (a b k : ℕ) (hab : a ≠ b) :
    addEdgeU f a b k =
      if k = a then f a ++ [b] else if k = b then f b ++ [a] else f k := by
  unfold addEdgeU upd
  by_cases hkb : k = b
  · subst hkb
    rw [if_pos rfl, if_neg (Ne.symm hab), if_neg (fun h => hab h.symm), if_pos rfl]
  · rw [if_neg hkb]
    by_cases hka : k = a
    · subst hka
      rw [if_pos rfl, if_pos rfl]
    · rw [if_neg hka, if_neg hka, if_neg hkb]

theorem addEdgeU_apply_other (f : ℕ → List ℕ) (a b k : ℕ)
    (hka : k ≠ a) (hkb : k ≠ b) : addEdgeU f a b k = f k := by
  unfold addEdgeU upd
  rw [if_neg hkb, if_neg hka]

theorem addEdgeU_mem (f : ℕ → List ℕ) (a b k x : ℕ) (hab : a ≠ b) :
    x ∈ addEdgeU f a b k ↔ x ∈ f k ∨ (k = a ∧ x = b) ∨ (k = b ∧ x = a) := by
  rw [addEdgeU_apply f a b k hab]
  by_cases h1 : k = a
  · subst h1
    rw [if_pos rfl]
    simp [hab]
  · rw [if_neg h1]
    by_cases h2 : k = b
    · subst h2
      rw [if_pos rfl]
      simp [h1, List.mem_append]
    · rw [if_neg h2]
      simp [h1, h2]

theorem addEdgeU_mono (f : ℕ → List ℕ) (a b k x : ℕ) (hx : x ∈ f k) :
    x ∈ addEdgeU f a b k := by
  unfold addEdgeU upd
  split_ifs with h1 h2 h3 <;> simp_all [List.mem_append]

/-- Star phase: for i in range(1, n): adj[0].append(i); adj[i].append(0). -/
def starAdj (n : ℕ) : ℕ → List ℕ :=
  (List.range' 1 (n - 1)).foldl (fun f i => addEdgeU f 0 i) (fun _ => [])

theorem starAux :
    ∀ (l : List ℕ) (f : ℕ → List ℕ), (∀ i ∈ l, i ≠ 0) → (∀ i ∈ l, f i = []) →
      l.Nodup →
      ((l.foldl (fun f i => addEdgeU f 0 i) f) 0 = f 0 ++ l) ∧
      (∀ i ∈ l, (l.foldl (fun f i => addEdgeU f 0 i) f) i = [0]) ∧
      (∀ k, k ≠ 0 → k ∉ l → (l.foldl (fun f i => addEdgeU f 0 i) f) k = f k) := by
  intro l
  induction l with
  | nil => intro f _ _ _; simp
  | cons a l ih =>
      intro f h0 hemp hnd
      have ha0 : a ≠ 0 := h0 a (List.mem_cons_self a l)
      have hanl : a ∉ l := (List.nodup_cons.mp hnd).1
      have hf1_0 : (addEdgeU f 0 a) 0 = f 0 ++ [a] := by
        rw [addEdgeU_apply f 0 a 0 (Ne.symm ha0), if_pos rfl]
      have hf1_a : (addEdgeU f 0 a) a = [0] := by
        rw [addEdgeU_apply f 0 a a (Ne.symm ha0), if_neg ha0, if_pos rfl,
          hemp a (List.mem_cons_self a l)]
        rfl
      have hf1_k : ∀ k, k ≠ 0 → k ≠ a → (addEdgeU f 0 a) k = f k := by
        intro k hk0 hka
        rw [addEdgeU_apply f 0 a k (Ne.symm ha0), if_neg hk0, if_neg hka]
      have ihres := ih (addEdgeU f 0 a)
        (fun i hi => h0 i (List.mem_cons_of_mem a hi))
        (fun i hi => by
          rw [hf1_k i (h0 i (List.mem_cons_of_mem a hi)) (fun he => hanl (he ▸ hi))]
          exact hemp i (List.mem_cons_of_mem a hi))
        (List.nodup_cons.mp hnd).2
      refine ⟨?_, ?_, ?_⟩
      · rw [List.foldl_cons, ihres.1, hf1_0, List.append_assoc]
        rfl
      · intro i hi
        rcases List.mem_cons.mp hi with h | h
        · subst h
          rw [List.foldl_cons, ihres.2.2 i ha0 hanl, hf1_a]
        · rw [List.foldl_cons]
          exact ihres.2.1 i h
      · intro k hk0 hkl
        rw [List.foldl_cons, ihres.2.2 k hk0 (fun h => hkl (List.mem_cons_of_mem a h)),
          hf1_k k hk0 (fun h => hkl (h ▸ List.mem_cons_self a l))]

theorem starAdj_spec (n : ℕ) :
    (starAdj n 0 = List.range' 1 (n - 1)) ∧
    (∀ i ∈ List.range' 1 (n - 1), starAdj n i = [0]) ∧
    (∀ k, k ≠ 0 → k ∉ List.range' 1 (n - 1) → starAdj n k = []) := by
  have h := starAux (List.range' 1 (n - 1)) (fun _ => [])
    (by intro i hi; rw [List.mem_range'_1] at hi; omega)
    (fun _ _ => rfl) (List.nodup_range' 1 (n - 1))
  unfold starAdj
  exact ⟨by rw [h.1]; rfl, h.2.1, h.2.2⟩

/-- Lexicographic order on (distance, index) pairs: Python tuple comparison. -/
def pairLe {α : Type} [LinearOrder α] : (α × ℕ) → (α × ℕ) → Prop :=
  fun x y => x.1 < y.1 ∨ (x.1 = y.1 ∧ x.2 ≤ y.2)

section CrystalAdj

variable {α : Type} [LinearOrder α]

instance : DecidableRel (pairLe (α := α)) := fun x y => by
  unfold pairLe; infer_instance

instance : IsTotal (α × ℕ) pairLe :=
  ⟨fun x y => by
    unfold pairLe
    rcases lt_trichotomy x.1 y.1 with h | h | h
    · exact Or.inl (Or.inl h)
    · rcases Nat.le_total x.2 y.2 with h2 | h2
      · exact Or.inl (Or.inr ⟨h, h2⟩)
      · exact Or.inr (Or.inr ⟨h.symm, h2⟩)
    · exact Or.inr (Or.inl h)⟩

instance : IsTrans (α × ℕ) pairLe :=
  ⟨fun x y z hxy hyz => by
    unfold pairLe at hxy hyz ⊢
    rcases hxy with h | ⟨he, hn⟩ <;> rcases hyz with h2 | ⟨he2, hn2⟩
    · exact Or.inl (h.trans h2)
    · exact Or.inl (he2 ▸ h)
    · exact Or.inl (he ▸ h2)
    · exact Or.inr ⟨he.trans he2, hn.trans hn2⟩⟩

/-- Candidate pairs (dist(i,j), j) for j in range(1, n), j != i. -/
def candPairs (dist : ℕ → ℕ → α) (n i : ℕ) : List (α × ℕ) :=
  ((List.range' 1 (n - 1)).filter (fun j => decide (j ≠ i))).map (fun j => (dist i j, j))

/-- The six nearest indices: dists.sort(); take the first 6 second components. -/
def nearestSix (dist : ℕ → ℕ → α) (n i : ℕ) : List ℕ :=
  (((candPairs dist n i).insertionSort pairLe).take 6).map Prod.snd

/-- Inner wiring loop: for (_, j) in dists[:6]: if j not in adj[i]: add both. -/
def addNearest (dist : ℕ → ℕ → α) (n : ℕ) (f : ℕ → List ℕ) (i : ℕ) : ℕ → List ℕ :=
  (nearestSix dist n i).foldl (fun g j => if j ∈ g i then g else addEdgeU g i j) f

/-- Pre-dedup adjacency: star phase then the nearest-neighbor wiring loop over
all non-center vertices. -/
def crystalPre (n : ℕ) (dist : ℕ → ℕ → α) : ℕ → List ℕ :=
  (List.range' 1 (n - 1)).foldl (addNearest dist n) (starAdj n)

/-- build_crystal_adjacency's adjacency for n = len(positions): the wiring
above followed by per-list dedup (list(set(adj[i])), set semantics). -/
def buildCrystalAdj (n : ℕ) (dist : ℕ → ℕ → α) : ℕ → List ℕ :=
  fun k => (crystalPre n dist k).dedup

theorem nearestSix_mem_bounds (dist : ℕ → ℕ → α) (n i : ℕ) :
    ∀ j ∈ nearestSix dist n i, 1 ≤ j ∧ j < n ∧ j ≠ i := by
  intro j hj
  unfold nearestSix at hj
  obtain ⟨p, hp, hps⟩ := List.mem_map.mp hj
  have hp2 : p ∈ (candPairs dist n i).insertionSort pairLe :=
    List.mem_of_mem_take hp
  rw [List.mem_insertionSort] at hp2
  unfold candPairs at hp2
  obtain ⟨q, hq, hqp⟩ := List.mem_map.mp hp2
  rw [List.mem_filter] at hq
  have hq1 := hq.1
  rw [List.mem_range'_1] at hq1
  have hq2 : q ≠ i := by simpa using hq.2
  have hj2 : j = q := by rw [← hps, ← hqp]
  subst hj2
  omega

theorem nearFold_mono (i : ℕ) :
    ∀ (l : List ℕ) (g : ℕ → List ℕ) (k x : ℕ), x ∈ g k →
      x ∈ (l.foldl (fun g j => if j ∈ g i then g else addEdgeU g i j) g) k := by
  intro l
  induction l with
  | nil => intro g k x hx; simpa
  | cons a l ih =>
      intro g k x hx
      rw [List.foldl_cons]
      apply ih
      split_ifs
      · exact hx
      · exact addEdgeU_mono g i a k x hx

theorem addNearest_mono (dist : ℕ → ℕ → α) (n : ℕ) (f : ℕ → List ℕ) (i k x : ℕ)
    (hx : x ∈ f k) : x ∈ addNearest dist n f i k :=
  nearFold_mono i (nearestSix dist n i) f k x hx

theorem outerFold_mono (dist : ℕ → ℕ → α) (n : ℕ) :
    ∀ (L : List ℕ) (f : ℕ → List ℕ) (k x : ℕ), x ∈ f k →
      x ∈ (L.foldl (addNearest dist n) f) k := by
  intro L
  induction L with
  | nil => intro f k x hx; simpa
  | cons a L ih =>
      intro f k x hx
      rw [List.foldl_cons]
      exact ih _ k x (addNearest_mono dist n f a k x hx)

theorem nearFold_self (i : ℕ) :
    ∀ (l : List ℕ) (g : ℕ → List ℕ), (∀ j ∈ l, j ≠ i) →
      ∀ j ∈ l, j ∈ (l.foldl (fun g j => if j ∈ g i then g else addEdgeU g i j) g) i := by
  intro l
  induction l with
  | nil => intro g _ j hj; simp at hj
  | cons a l ih =>
      intro g hne j hj
      rw [List.foldl_cons]
      rcases List.mem_cons.mp hj with h | h
      · subst h
        apply nearFold_mono
        by_cases hm : j ∈ g i
        · rw [if_pos hm]; exact hm
        · rw [if_neg hm]
          have hia : i ≠ j := Ne.symm (hne j (List.mem_cons_self j l))
          rw [addEdgeU_apply g i j i hia, if_pos rfl]
          exact List.mem_append_right _ (List.mem_singleton_self j)
      · exact ih _ (fun q hq => hne q (List.mem_cons_of_mem a hq)) j h

theorem addNearest_self (dist : ℕ → ℕ → α) (n : ℕ) (f : ℕ → List ℕ) (i : ℕ) :
    ∀ j ∈ nearestSix dist n i, j ∈ addNearest dist n f i i :=
  nearFold_self i (nearestSix dist n i) f
    (fun j hj => (nearestSix_mem_bounds dist n i j hj).2.2)

theorem outerFold_six (dist : ℕ → ℕ → α) (n i : ℕ) :
    ∀ (L : List ℕ) (f : ℕ → List ℕ), i ∈ L →
      ∀ j ∈ nearestSix dist n i, j ∈ (L.foldl (addNearest dist n) f) i := by
  intro L
  induction L with
  | nil => intro f h; simp at h
  | cons a L ih =>
      intro f hiL j hj
      rw [List.foldl_cons]
      by_cases hia : i = a
      · subst hia
        exact outerFold_mono dist n L _ i j (addNearest_self dist n f i j hj)
      · rcases List.mem_cons.mp hiL with h | h
        · exact absurd h hia
        · exact ih _ h j hj

/-- Invariant of an adjacency map: symmetric, irreflexive, index-bounded. -/
def AdjInv (n : ℕ) (f : ℕ → List ℕ) : Prop :=
  (∀ a b, a ∈ f b ↔ b ∈ f a) ∧ (∀ a, a ∉ f a) ∧ (∀ a b, b ∈ f a → b < n ∧ a < n)

theorem addEdgeU_inv (n : ℕ) (f : ℕ → List ℕ) (a b : ℕ) (hab : a ≠ b)
    (ha : a < n) (hb : b < n) (h : AdjInv n f) : AdjInv n (addEdgeU f a b) := by
  obtain ⟨hsym, hirr, hbnd⟩ := h
  refine ⟨?_, ?_, ?_⟩
  · intro x y
    rw [addEdgeU_mem f a b y x hab, addEdgeU_mem f a b x y hab, hsym x y]
    tauto
  · intro x hx
    rw [addEdgeU_mem f a b x x hab] at hx
    rcases hx with h | ⟨h1, h2⟩ | ⟨h1, h2⟩
    · exact hirr x h
    · subst h1; exact hab h2
    · subst h1; exact hab h2.symm
  · intro x y hy
    rw [addEdgeU_mem f a b x y hab] at hy
    rcases hy with h | ⟨h1, h2⟩ | ⟨h1, h2⟩
    · exact hbnd x y h
    · subst h1; subst h2; exact ⟨hb, ha⟩
    · subst h1; subst h2; exact ⟨ha, hb⟩

theorem starAdj_mem (n : ℕ) : ∀ k x, x ∈ starAdj n k ↔
    ((k = 0 ∧ x ∈ List.range' 1 (n - 1)) ∨ (k ∈ List.range' 1 (n - 1) ∧ x = 0)) := by
  intro k x
  obtain ⟨h0, hmem, hout⟩ := starAdj_spec n
  by_cases hk : k = 0
  · subst hk
    rw [h0]
    constructor
    · intro h; exact Or.inl ⟨rfl, h⟩
    · intro h
      rcases h with ⟨_, h⟩ | ⟨h1, h2⟩
      · exact h
      · rw [List.mem_range'_1] at h1; omega
  · by_cases hk2 : k ∈ List.range' 1 (n - 1)
    · rw [hmem k hk2]; simp [hk, hk2]
    · rw [hout k hk hk2]; simp [hk, hk2]

theorem starAdj_inv (n : ℕ) : AdjInv n (starAdj n) := by
  refine ⟨?_, ?_, ?_⟩
  · intro a b
    rw [starAdj_mem, starAdj_mem]
    tauto
  · intro a h
    rw [starAdj_mem] at h
    rcases h with ⟨h1, h2⟩ | ⟨h1, h2⟩
    · subst h1; rw [List.mem_range'_1] at h2; omega
    · subst h2; rw [List.mem_range'_1] at h1; omega
  · intro a b h
    rw [starAdj_mem] at h
    rcases h with ⟨h1, h2⟩ | ⟨h1, h2⟩ <;>
      [skip; skip] <;> first
      | (rw [List.mem_range'_1] at h2; subst h1; omega)
      | (rw [List.mem_range'_1] at h1; subst h2; omega)

theorem nearFold_inv (n i : ℕ) (hi1 : 1 ≤ i) (hin : i < n) :
    ∀ (l : List ℕ), (∀ j ∈ l, 1 ≤ j ∧ j < n ∧ j ≠ i) →
      ∀ g, AdjInv n g →
      AdjInv n (l.foldl (fun g j => if j ∈ g i then g else addEdgeU g i j) g) := by
  intro l
  induction l with
  | nil => intro _ g hg; simpa
  | cons a l ih =>
      intro hl g hg
      rw [List.foldl_cons]
      apply ih (fun j hj => hl j (List.mem_cons_of_mem a hj))
      split_ifs
      · exact hg
      · have hb := hl a (List.mem_cons_self a l)
        exact addEdgeU_inv n g i a (Ne.symm hb.2.2) hin hb.2.1 hg

theorem crystalPre_inv (n : ℕ) (dist : ℕ → ℕ → α) : AdjInv n (crystalPre n dist) := by
  unfold crystalPre
  have hgen : ∀ (L : List ℕ), (∀ i ∈ L, 1 ≤ i ∧ i < n) →
      ∀ f, AdjInv n f → AdjInv n (L.foldl (addNearest dist n) f) := by
    intro L
    induction L with
    | nil => intro _ f hf; simpa
    | cons a L ih =>
        intro hL f hf
        rw [List.foldl_cons]
        apply ih (fun i hi => hL i (List.mem_cons_of_mem a hi))
        unfold addNearest
        exact nearFold_inv n a (hL a (List.mem_cons_self a L)).1
          (hL a (List.mem_cons_self a L)).2 (nearestSix dist n a)
          (fun j hj => nearestSix_mem_bounds dist n a j hj) f hf
  exact hgen _ (by intro i hi; rw [List.mem_range'_1] at hi; omega) _ (starAdj_inv n)

theorem nearFold_other (i : ℕ) :
    ∀ (l : List ℕ) (g : ℕ → List ℕ) (k : ℕ), k ≠ i → k ∉ l →
      (l.foldl (fun g j => if j ∈ g i then g else addEdgeU g i j) g) k = g k := by
  intro l
  induction l with
  | nil => intro g k _ _; rfl
  | cons a l ih =>
      intro g k hki hkl
      rw [List.foldl_cons,
        ih _ k hki (fun h => hkl (List.mem_cons_of_mem a h))]
      split_ifs
      · rfl
      · exact addEdgeU_apply_other g i a k hki (fun h => hkl (h ▸ List.mem_cons_self a l))

theorem crystalPre_zero (n : ℕ) (dist : ℕ → ℕ → α) :
    crystalPre n dist 0 = List.range' 1 (n - 1) := by
  unfold crystalPre
  have hgen : ∀ (L : List ℕ), (∀ i ∈ L, i ≠ 0) →
      ∀ f, (L.foldl (addNearest dist n) f) 0 = f 0 := by
    intro L
    induction L with
    | nil => intro _ f; rfl
    | cons a L ih =>
        intro hL f
        rw [List.foldl_cons, ih (fun i hi => hL i (List.mem_cons_of_mem a hi))]
        unfold addNearest
        apply nearFold_other a _ f 0 (Ne.symm (hL a (List.mem_cons_self a L)))
        intro h
        have := (nearestSix_mem_bounds dist n a 0 h).1
        omega
  rw [hgen _ (by intro i hi; rw [List.mem_range'_1] at hi; omega) _, (starAdj_spec n).1]

theorem length_filter_ne (i : ℕ) :
    ∀ (l : List ℕ), l.Nodup →
      l.length ≤ (l.filter (fun j => decide (j ≠ i))).length + 1 := by
  intro l
  induction l with
  | nil => intro _; simp
  | cons a l ih =>
      intro hnd
      obtain ⟨hal, hl⟩ := List.nodup_cons.mp hnd
      by_cases hai : a = i
      · subst hai
        have hfe : l.filter (fun j => decide (j ≠ a)) = l :=
          List.filter_eq_self.mpr (fun x hx => by
            simp only [decide_eq_true_eq]
            exact fun he => hal (he ▸ hx))
        simp only [List.filter_cons, List.length_cons]
        rw [if_neg (by simp), hfe]
      · have := ih hl
        simp only [List.filter_cons, List.length_cons]
        rw [if_pos (by simp [hai])]
        simp only [List.length_cons]
        omega

theorem nearestSix_length (dist : ℕ → ℕ → α) (n i : ℕ) (h8 : 8 ≤ n) :
    (nearestSix dist n i).length = 6 := by
  have hcl : (candPairs dist n i).length ≥ 6 := by
    unfold candPairs
    rw [List.length_map]
    have h1 := length_filter_ne i (List.range' 1 (n - 1)) (List.nodup_range' 1 (n - 1))
    rw [List.length_range'] at h1
    omega
  unfold nearestSix
  rw [List.length_map, List.length_take,
    ((candPairs dist n i).perm_insertionSort pairLe).length_eq]
  omega

theorem nearestSix_snd_nodup (dist : ℕ → ℕ → α) (n i : ℕ) :
    (nearestSix dist n i).Nodup := by
  unfold nearestSix
  rw [List.map_take]
  have hperm : (((candPairs dist n i).insertionSort pairLe).map Prod.snd).Perm
      ((candPairs dist n i).map Prod.snd) :=
    ((candPairs dist n i).perm_insertionSort pairLe).map Prod.snd
  have hcand : ((candPairs dist n i).map Prod.snd) =
      (List.range' 1 (n - 1)).filter (fun j => decide (j ≠ i)) := by
    unfold candPairs
    rw [List.map_map]
    simp [Function.comp_def]
  have hnodup : (((candPairs dist n i).insertionSort pairLe).map Prod.snd).Nodup := by
    rw [hperm.nodup_iff, hcand]
    exact (List.nodup_range' 1 (n - 1)).filter _
  exact List.Nodup.sublist (List.take_sublist 6 _) hnodup

theorem nearestSix_minimal (dist : ℕ → ℕ → α) (n i j : ℕ)
    (hj : j ∈ nearestSix dist n i) (k : ℕ) (hk : k ∈ List.range' 1 (n - 1))
    (hki : k ≠ i) (hknot : k ∉ nearestSix dist n i) :
    dist i j < dist i k ∨ (dist i j = dist i k ∧ j < k) := by
  have hsorted : List.Sorted pairLe ((candPairs dist n i).insertionSort pairLe) :=
    List.sorted_insertionSort pairLe _
  have hperm : ((candPairs dist n i).insertionSort pairLe).Perm (candPairs dist n i) :=
    (candPairs dist n i).perm_insertionSort pairLe
  have hkc : (dist i k, k) ∈ candPairs dist n i := by
    unfold candPairs
    exact List.mem_map.mpr ⟨k, List.mem_filter.mpr ⟨hk, by simp [hki]⟩, rfl⟩
  have hks : (dist i k, k) ∈ (candPairs dist n i).insertionSort pairLe :=
    hperm.mem_iff.mpr hkc
  obtain ⟨pj, hpj, hpj2⟩ := List.mem_map.mp hj
  have hpjc : pj ∈ candPairs dist n i := hperm.mem_iff.mp (List.mem_of_mem_take hpj)
  have hpj1 : pj.1 = dist i pj.2 := by
    unfold candPairs at hpjc
    obtain ⟨q, _, hq⟩ := List.mem_map.mp hpjc
    rw [← hq]
  have hkd : (dist i k, k) ∈ ((candPairs dist n i).insertionSort pairLe).drop 6 := by
    rw [← List.take_append_drop 6 ((candPairs dist n i).insertionSort pairLe)] at hks
    rcases List.mem_append.mp hks with h | h
    · exfalso
      apply hknot
      unfold nearestSix
      exact List.mem_map.mpr ⟨(dist i k, k), h, rfl⟩
    · exact h
  have hpair : pairLe pj (dist i k, k) := by
    have hpw : List.Pairwise pairLe
        (((candPairs dist n i).insertionSort pairLe).take 6 ++
          ((candPairs dist n i).insertionSort pairLe).drop 6) := by
      rw [List.take_append_drop 6 _]
      exact hsorted
    exact (List.pairwise_append.mp hpw).2.2 pj hpj _ hkd
  have hjk : j ≠ k := fun he => hknot (he ▸ hj)
  unfold pairLe at hpair
  rcases hpair with h | ⟨h1, h2⟩
  · left
    rw [hpj1, hpj2] at h
    exact h
  · right
    rw [hpj1, hpj2] at h1
    rw [hpj2] at h2
    exact ⟨h1, lt_of_le_of_ne h2 hjk⟩

/-- C8: in the seed graph built by build_crystal_adjacency(K), the center
(vertex 0) is adjacent to exactly the other n_frozen - 1 seed vertices, and
every non-center vertex has exactly one edge to the center plus at least 6
distinct non-center neighbors that are minimal in the (distance, index)
lexicographic order (ascending distance, ties broken by ascending index). -/
theorem c8_seed_graph_structure (K : ℕ) (dist : ℕ → ℕ → α) (hK : 2 ≤ K) :
    (∀ j, j ∈ buildCrystalAdj (nFrozenOf K) dist 0 ↔ (1 ≤ j ∧ j < nFrozenOf K)) ∧
    (buildCrystalAdj (nFrozenOf K) dist 0).length = nFrozenOf K - 1 ∧
    (∀ i, 1 ≤ i → i < nFrozenOf K →
      (buildCrystalAdj (nFrozenOf K) dist i).count 0 = 1 ∧
      (∀ j ∈ nearestSix dist (nFrozenOf K) i, j ∈ buildCrystalAdj (nFrozenOf K) dist i) ∧
      (nearestSix dist (nFrozenOf K) i).length = 6 ∧
      (nearestSix dist (nFrozenOf K) i).Nodup ∧
      (∀ j ∈ nearestSix dist (nFrozenOf K) i, 1 ≤ j ∧ j < nFrozenOf K ∧ j ≠ i) ∧
      (∀ j ∈ nearestSix dist (nFrozenOf K) i, ∀ k, 1 ≤ k → k < nFrozenOf K → k ≠ i →
        k ∉ nearestSix dist (nFrozenOf K) i →
        dist i j < dist i k ∨ (dist i j = dist i k ∧ j < k))) := by
  have h13 := thirteen_le_nFrozenOf K
  have hzero : buildCrystalAdj (nFrozenOf K) dist 0 = List.range' 1 (nFrozenOf K - 1) := by
    unfold buildCrystalAdj
    rw [crystalPre_zero, List.dedup_eq_self.mpr (List.nodup_range' 1 (nFrozenOf K - 1))]
  refine ⟨?_, ?_, ?_⟩
  · intro j
    rw [hzero, List.mem_range'_1]
    omega
  · rw [hzero, List.length_range']
  · intro i hi1 hi2
    have hir : i ∈ List.range' 1 (nFrozenOf K - 1) := by
      rw [List.mem_range'_1]; omega
    have hnd : (buildCrystalAdj (nFrozenOf K) dist i).Nodup := List.nodup_dedup _
    refine ⟨?_, ?_, nearestSix_length dist (nFrozenOf K) i (by omega),
      nearestSix_snd_nodup dist (nFrozenOf K) i,
      fun j hj => nearestSix_mem_bounds dist (nFrozenOf K) i j hj, ?_⟩
    · apply List.count_eq_one_of_mem hnd
      unfold buildCrystalAdj
      rw [List.mem_dedup]
      unfold crystalPre
      apply outerFold_mono
      rw [(starAdj_spec (nFrozenOf K)).2.1 i hir]
      exact List.mem_singleton_self 0
    · intro j hj
      unfold buildCrystalAdj
      rw [List.mem_dedup]
      unfold crystalPre
      exact outerFold_six dist (nFrozenOf K) i _ _ hir j hj
    · intro j hj k hk1 hk2 hki hknot
      exact nearestSix_minimal dist (nFrozenOf K) i j hj k
        (by rw [List.mem_range'_1]; omega) hki hknot

/-- Witness for C8 at K = 2 with a concrete rational metric. -/
theorem c8_seed_graph_structure_witness :
    (buildCrystalAdj (nFrozenOf 2) (fun a b => ((a * 100 + b : ℕ) : ℚ)) 0).length =
      nFrozenOf 2 - 1 ∧
    (nearestSix (fun a b => ((a * 100 + b : ℕ) : ℚ)) (nFrozenOf 2) 1).length = 6 :=
  ⟨(c8_seed_graph_structure 2 (fun a b => ((a * 100 + b : ℕ) : ℚ)) (by norm_num)).2.1,
   ((c8_seed_graph_structure 2 (fun a b => ((a * 100 + b : ℕ) : ℚ)) (by norm_num)).2.2 1
     (by norm_num) (by norm_num [nFrozenOf])).2.2.1⟩

end CrystalAdj

/-! ## Pool-network assembly (run_geometry lines 34-54, test_fault_tolerance
lines 124-141: copy frozen adjacency, attach contacts, add the fluid mesh) -/

/-- Combined adjacency before wiring: frozen lists copied verbatim, pool lists
empty. -/
def baseAdj (nFrozen : ℕ) (frozenAdj : ℕ → List ℕ) : ℕ → List ℕ :=
  fun i => if i < nFrozen then frozenAdj i else []

/-- Frozen-fluid contacts: for each pool oscillator i, for each drawn contact
c: adj[i].append(c); adj[c].append(i). -/
def contactsFold (nFrozen pool : ℕ) (contacts : ℕ → List ℕ)
    (f : ℕ → List ℕ) : ℕ → List ℕ :=
  (List.range' nFrozen pool).foldl
    (fun g i => (contacts i).foldl (fun h c => addEdgeU h i c) g) f

/-- Fluid-fluid sparse mesh: for each drawn pair (i, j), if j not in adj[i],
add the symmetric edge. -/
def meshFold (mesh : List (ℕ × ℕ)) (f : ℕ → List ℕ) : ℕ → List ℕ :=
  mesh.foldl (fun g p => if p.2 ∈ g p.1 then g else addEdgeU g p.1 p.2) f

/-- Full pool-network assembly. -/
def assembleAdj (nFrozen pool : ℕ) (frozenAdj contacts : ℕ → List ℕ)
    (mesh : List (ℕ × ℕ)) : ℕ → List ℕ :=
  meshFold mesh (contactsFold nFrozen pool contacts (baseAdj nFrozen frozenAdj))

theorem contactsInner (i0 : ℕ) :
    ∀ (cs : List ℕ) (f : ℕ → List ℕ), cs.Nodup → i0 ∉ cs →
      ∀ k, (cs.foldl (fun h c => addEdgeU h i0 c) f) k =
        f k ++ (if k = i0 then cs else if k ∈ cs then [i0] else []) := by
  intro cs
  induction cs with
  | nil =>
      intro f _ _ k
      by_cases hk : k = i0 <;> simp [hk]
  | cons c cs ih =>
      intro f hnd hi0 k
      have hic : i0 ≠ c := fun h => hi0 (h ▸ List.mem_cons_self c cs)
      rw [List.foldl_cons,
        ih (addEdgeU f i0 c) (List.nodup_cons.mp hnd).2
          (fun h => hi0 (List.mem_cons_of_mem c h)) k]
      by_cases hk : k = i0
      · subst hk
        rw [if_pos rfl, if_pos rfl, addEdgeU_apply f k c k hic, if_pos rfl,
          List.append_assoc]
        rfl
      · rw [if_neg hk]
        by_cases hkc : k = c
        · subst hkc
          have hkcs : k ∉ cs := (List.nodup_cons.mp hnd).1
          rw [if_neg hkcs, addEdgeU_apply f i0 k k (fun h => hk h.symm),
            if_neg hk, if_pos rfl, if_pos (List.mem_cons_self k cs),
            List.append_nil, if_neg hk]
        · rw [addEdgeU_apply_other f i0 c k hk hkc]
          have hmc : (k ∈ c :: cs) ↔ (k ∈ cs) := by simp [hkc]
          by_cases hkcs : k ∈ cs
          · rw [if_pos hkcs, if_neg hk, if_pos (hmc.mpr hkcs)]
          · rw [if_neg hkcs, if_neg hk, if_neg (fun h => hkcs (hmc.mp h))]

theorem contactsOuter (nFrozen : ℕ) (contacts : ℕ → List ℕ)
    (hc : ∀ i, (contacts i).Nodup ∧ ∀ c ∈ contacts i, c < nFrozen) :
    ∀ (l : List ℕ), l.Nodup → (∀ i ∈ l, nFrozen ≤ i) →
      ∀ (f : ℕ → List ℕ) (k : ℕ),
        (l.foldl (fun g i => (contacts i).foldl (fun h c => addEdgeU h i c) g) f) k =
          f k ++ (if k ∈ l then contacts k
            else l.filter (fun q => decide (k ∈ contacts q))) := by
  intro l
  induction l with
  | nil =>
      intro _ _ f k
      simp
  | cons i0 l ih =>
      intro hnd hge f k
      have hi0c : i0 ∉ contacts i0 := fun hmem => by
        have h1 := (hc i0).2 i0 hmem
        have h2 := hge i0 (List.mem_cons_self i0 l)
        omega
      rw [List.foldl_cons,
        ih (List.nodup_cons.mp hnd).2 (fun i hi => hge i (List.mem_cons_of_mem i0 hi)) _ k,
        contactsInner i0 (contacts i0) f (hc i0).1 hi0c k, List.append_assoc]
      congr 1
      by_cases hk0 : k = i0
      · subst hk0
        rw [if_pos rfl, if_pos (List.mem_cons_self k l),
          if_neg (List.nodup_cons.mp hnd).1,
          List.filter_eq_nil.mpr (fun q hq => by
            simp only [decide_eq_true_eq]
            intro hmem
            have h1 := (hc q).2 k hmem
            have h2 := hge k (List.mem_cons_self k l)
            omega),
          List.append_nil]
      · rw [if_neg hk0]
        by_cases hkl : k ∈ l
        · have hknc : k ∉ contacts i0 := fun hmem => by
            have h1 := (hc i0).2 k hmem
            have h2 := hge k (List.mem_cons_of_mem i0 hkl)
            omega
          rw [if_pos hkl, if_pos (List.mem_cons_of_mem i0 hkl), if_neg hknc,
            List.nil_append]
        · rw [if_neg hkl, if_neg (show ¬ (k ∈ i0 :: l) from fun h => by
            rcases List.mem_cons.mp h with h1 | h1
            · exact hk0 h1
            · exact hkl h1), List.filter_cons]
          by_cases hkc : k ∈ contacts i0
          · rw [if_pos (show decide (k ∈ contacts i0) = true by simp [hkc]), if_pos hkc]
            rfl
          · rw [if_neg (show ¬ decide (k ∈ contacts i0) = true by simp [hkc]),
              if_neg hkc, List.nil_append]

theorem meshFold_mono :
    ∀ (mesh : List (ℕ × ℕ)) (f : ℕ → List ℕ) (k x : ℕ), x ∈ f k →
      x ∈ meshFold mesh f k := by
  intro mesh
  induction mesh with
  | nil => intro f k x hx; simpa [meshFold]
  | cons p mesh ih =>
      intro f k x hx
      unfold meshFold
      rw [List.foldl_cons]
      apply ih
      split_ifs
      · exact hx
      · exact addEdgeU_mono f p.1 p.2 k x hx

theorem meshFold_filter (nFrozen : ℕ) :
    ∀ (mesh : List (ℕ × ℕ)),
      (∀ p ∈ mesh, p.1 ≠ p.2 ∧ nFrozen ≤ p.1 ∧ nFrozen ≤ p.2) →
      ∀ (f : ℕ → List ℕ) (k : ℕ),
        (meshFold mesh f k).filter (fun c => decide (c < nFrozen)) =
          (f k).filter (fun c => decide (c < nFrozen)) := by
  intro mesh
  induction mesh with
  | nil => intro _ f k; rfl
  | cons p mesh ih =>
      intro hm f k
      unfold meshFold
      rw [List.foldl_cons]
      have hp := hm p (List.mem_cons_self p mesh)
      have htail := ih (fun q hq => hm q (List.mem_cons_of_mem p hq))
      split_ifs with hg
      · exact htail f k
      · have htail2 : List.filter (fun c => decide (c < nFrozen))
            (List.foldl (fun g p => if p.2 ∈ g p.1 then g else addEdgeU g p.1 p.2)
              (addEdgeU f p.1 p.2) mesh k) =
            List.filter (fun c => decide (c < nFrozen)) ((addEdgeU f p.1 p.2) k) :=
          htail _ k
        rw [htail2, addEdgeU_apply f p.1 p.2 k hp.1]
        split_ifs with h1 h2
        · rw [List.filter_append]
          have hfe : [p.2].filter (fun c => decide (c < nFrozen)) = [] := by
            simp only [List.filter_cons, List.filter_nil]
            rw [if_neg (show ¬ decide (p.2 < nFrozen) = true by simp; omega)]
          rw [hfe, List.append_nil, h1]
        · rw [List.filter_append]
          have hfe : [p.1].filter (fun c => decide (c < nFrozen)) = [] := by
            simp only [List.filter_cons, List.filter_nil]
            rw [if_neg (show ¬ decide (p.1 < nFrozen) = true by simp; omega)]
          rw [hfe, List.append_nil, h2]
        · rfl

/-- Symmetric, irreflexive, per-list-Nodup adjacency. -/
def SymAdj (f : ℕ → List ℕ) : Prop :=
  (∀ a b, a ∈ f b ↔ b ∈ f a) ∧ (∀ a, a ∉ f a) ∧ (∀ a, (f a).Nodup)

theorem meshFold_symAdj :
    ∀ (mesh : List (ℕ × ℕ)), (∀ p ∈ mesh, p.1 ≠ p.2) →
      ∀ f, SymAdj f → SymAdj (meshFold mesh f) := by
  intro mesh
  induction mesh with
  | nil => intro _ f hf; exact hf
  | cons p mesh ih =>
      intro hm f hf
      unfold meshFold
      rw [List.foldl_cons]
      apply ih (fun q hq => hm q (List.mem_cons_of_mem p hq))
      split_ifs with hg
      · exact hf
      · obtain ⟨hsym, hirr, hnd⟩ := hf
        have hab := hm p (List.mem_cons_self p mesh)
        have hg2 : p.1 ∉ f p.2 := fun h => hg ((hsym p.2 p.1).mpr h)
      -- wait direction: hsym a b : a ∈ f b ↔ b ∈ f a; want p.1 ∈ f p.2 → p.2 ∈ f p.1
        refine ⟨?_, ?_, ?_⟩
        · intro x y
          rw [addEdgeU_mem f p.1 p.2 y x hab, addEdgeU_mem f p.1 p.2 x y hab,
            hsym x y]
          tauto
        · intro x hx
          rw [addEdgeU_mem f p.1 p.2 x x hab] at hx
          rcases hx with h | ⟨h1, h2⟩ | ⟨h1, h2⟩
          · exact hirr x h
          · exact hab (h1.symm.trans h2)
          · exact hab (h2.symm.trans h1)
        · intro x
          rw [addEdgeU_apply f p.1 p.2 x hab]
          split_ifs with h1 h2
          · rw [List.nodup_append]
            exact ⟨hnd p.1, List.nodup_singleton _, by
              simp only [List.disjoint_singleton]
              exact hg⟩
          · rw [List.nodup_append]
            exact ⟨hnd p.2, List.nodup_singleton _, by
              simp only [List.disjoint_singleton]
              exact hg2⟩
          · exact hnd x

section Assembly

variable {α : Type} [LinearOrder α]

theorem preMesh_symAdj (n pool : ℕ) (dist : ℕ → ℕ → α) (contacts : ℕ → List ℕ)
    (hc : ∀ i, (contacts i).Nodup ∧ ∀ c ∈ contacts i, c < n) :
    SymAdj (contactsFold n pool contacts (baseAdj n (buildCrystalAdj n dist))) := by
  have hcs : ∀ a b, a ∈ buildCrystalAdj n dist b ↔ b ∈ buildCrystalAdj n dist a := by
    intro a b
    unfold buildCrystalAdj
    rw [List.mem_dedup, List.mem_dedup]
    exact (crystalPre_inv n dist).1 a b
  have hci : ∀ a, a ∉ buildCrystalAdj n dist a := fun a h =>
    (crystalPre_inv n dist).2.1 a (List.mem_dedup.mp h)
  have hcb : ∀ a b, b ∈ buildCrystalAdj n dist a → b < n ∧ a < n := fun a b h =>
    (crystalPre_inv n dist).2.2 a b (List.mem_dedup.mp h)
  have hcn : ∀ a, (buildCrystalAdj n dist a).Nodup := fun a => List.nodup_dedup _
  have hcf : ∀ k, contactsFold n pool contacts (baseAdj n (buildCrystalAdj n dist)) k =
      (baseAdj n (buildCrystalAdj n dist)) k ++
        (if k ∈ List.range' n pool then contacts k
          else (List.range' n pool).filter (fun q => decide (k ∈ contacts q))) := by
    intro k
    unfold contactsFold
    exact contactsOuter n contacts hc (List.range' n pool) (List.nodup_range' n pool)
      (fun i hi => by rw [List.mem_range'_1] at hi; omega) _ k
  have hmem : ∀ k x, x ∈ contactsFold n pool contacts (baseAdj n (buildCrystalAdj n dist)) k ↔
      ((k < n ∧ x ∈ buildCrystalAdj n dist k) ∨
        (n ≤ k ∧ k < n + pool ∧ x ∈ contacts k) ∨
        (k < n ∧ n ≤ x ∧ x < n + pool ∧ k ∈ contacts x)) := by
    intro k x
    rw [hcf k, List.mem_append]
    unfold baseAdj
    by_cases hk1 : k < n
    · rw [if_pos hk1, if_neg (show ¬ k ∈ List.range' n pool from fun h => by
        rw [List.mem_range'_1] at h; omega)]
      rw [List.mem_filter, List.mem_range'_1]
      constructor
      · intro h
        rcases h with h | ⟨h1, h2⟩
        · exact Or.inl ⟨hk1, h⟩
        · exact Or.inr (Or.inr ⟨hk1, h1.1, h1.2, by simpa using h2⟩)
      · intro h
        rcases h with ⟨_, h⟩ | ⟨h1, _, _⟩ | ⟨_, h2, h3, h4⟩
        · exact Or.inl h
        · omega
        · exact Or.inr ⟨⟨h2, h3⟩, by simpa using h4⟩
    · rw [if_neg hk1]
      by_cases hk2 : k < n + pool
      · rw [if_pos (by rw [List.mem_range'_1]; omega)]
        constructor
        · intro h
          rcases h with h | h
          · simp at h
          · exact Or.inr (Or.inl ⟨by omega, hk2, h⟩)
        · intro h
          rcases h with ⟨h1, _⟩ | ⟨_, _, h3⟩ | ⟨h1, _⟩
          · omega
          · exact Or.inr h3
          · omega
      · rw [if_neg (show ¬ k ∈ List.range' n pool from fun h => by
          rw [List.mem_range'_1] at h; omega)]
        constructor
        · intro h
          rcases h with h | h
          · simp at h
          · rw [List.mem_filter] at h
            have := (hc x).2 k (by simpa using h.2)
            omega
        · intro h
          rcases h with ⟨h1, _⟩ | ⟨_, h2, _⟩ | ⟨h1, _⟩ <;> omega
  have hsw : ∀ a b,
      ((b < n ∧ a ∈ buildCrystalAdj n dist b) ∨
        (n ≤ b ∧ b < n + pool ∧ a ∈ contacts b) ∨
        (b < n ∧ n ≤ a ∧ a < n + pool ∧ b ∈ contacts a)) →
      ((a < n ∧ b ∈ buildCrystalAdj n dist a) ∨
        (n ≤ a ∧ a < n + pool ∧ b ∈ contacts a) ∨
        (a < n ∧ n ≤ b ∧ b < n + pool ∧ a ∈ contacts b)) := by
    intro a b h
    rcases h with ⟨h1, h2⟩ | ⟨h1, h2, h3⟩ | ⟨h1, h2, h3, h4⟩
    · exact Or.inl ⟨(hcb b a h2).1, (hcs a b).mp h2⟩
    · exact Or.inr (Or.inr ⟨(hc b).2 a h3, h1, h2, h3⟩)
    · exact Or.inr (Or.inl ⟨h2, h3, h4⟩)
  refine ⟨?_, ?_, ?_⟩
  · intro a b
    rw [hmem b a, hmem a b]
    exact ⟨hsw a b, hsw b a⟩
  · intro a h
    rw [hmem a a] at h
    rcases h with ⟨_, h2⟩ | ⟨h1, _, h3⟩ | ⟨h1, h2, _⟩
    · exact hci a h2
    · have := (hc a).2 a h3
      omega
    · omega
  · intro a
    rw [hcf a]
    unfold baseAdj
    by_cases hk1 : a < n
    · rw [if_pos hk1, if_neg (show ¬ a ∈ List.range' n pool from fun h => by
        rw [List.mem_range'_1] at h; omega)]
      rw [List.nodup_append]
      refine ⟨hcn a, (List.nodup_range' n pool).filter _, ?_⟩
      intro x hx1 hx2
      have hb1 := (hcb a x hx1).1
      rw [List.mem_filter, List.mem_range'_1] at hx2
      omega
    · rw [if_neg hk1]
      by_cases hk2 : a < n + pool
      · rw [if_pos (by rw [List.mem_range'_1]; omega), List.nil_append]
        exact (hc a).1
      · rw [if_neg (show ¬ a ∈ List.range' n pool from fun h => by
          rw [List.mem_range'_1] at h; omega), List.nil_append]
        exact (List.nodup_range' n pool).filter _

/-- C9: the combined adjacency has set semantics for the step loop: no
duplicate neighbor entries, no self-loops, and the neighbor relation is
symmetric. -/
theorem c9_combined_adjacency_set_semantics (K pool : ℕ) (dist : ℕ → ℕ → α)
    (contacts : ℕ → List ℕ) (mesh : List (ℕ × ℕ)) (hK : 2 ≤ K) (hpool : 0 < pool)
    (hc : ∀ i, (contacts i).Nodup ∧ ∀ c ∈ contacts i, c < nFrozenOf K)
    (hm : ∀ p ∈ mesh, p.1 ≠ p.2 ∧ nFrozenOf K ≤ p.1 ∧ p.1 < nFrozenOf K + pool ∧
      nFrozenOf K ≤ p.2 ∧ p.2 < nFrozenOf K + pool) :
    (∀ k, (assembleAdj (nFrozenOf K) pool (buildCrystalAdj (nFrozenOf K) dist)
      contacts mesh k).Nodup) ∧
    (∀ k, k ∉ assembleAdj (nFrozenOf K) pool (buildCrystalAdj (nFrozenOf K) dist)
      contacts mesh k) ∧
    (∀ a b, a ∈ assembleAdj (nFrozenOf K) pool (buildCrystalAdj (nFrozenOf K) dist)
      contacts mesh b ↔
      b ∈ assembleAdj (nFrozenOf K) pool (buildCrystalAdj (nFrozenOf K) dist)
        contacts mesh a) := by
  have h := meshFold_symAdj mesh (fun p hp => (hm p hp).1) _
    (preMesh_symAdj (nFrozenOf K) pool dist contacts hc)
  exact ⟨h.2.2, h.2.1, h.1⟩

/-- Witness for C9 at K = 2, pool = 1, one contact per pool node, empty mesh. -/
theorem c9_combined_adjacency_set_semantics_witness :
    (∀ k, (assembleAdj (nFrozenOf 2) 1
      (buildCrystalAdj (nFrozenOf 2) (fun a b => ((a * 100 + b : ℕ) : ℚ)))
      (fun _ => [0]) [] k).Nodup) ∧
    (∀ k, k ∉ assembleAdj (nFrozenOf 2) 1
      (buildCrystalAdj (nFrozenOf 2) (fun a b => ((a * 100 + b : ℕ) : ℚ)))
      (fun _ => [0]) [] k) ∧
    (∀ a b, a ∈ assembleAdj (nFrozenOf 2) 1
      (buildCrystalAdj (nFrozenOf 2) (fun a b => ((a * 100 + b : ℕ) : ℚ)))
      (fun _ => [0]) [] b ↔
      b ∈ assembleAdj (nFrozenOf 2) 1
        (buildCrystalAdj (nFrozenOf 2) (fun a b => ((a * 100 + b : ℕ) : ℚ)))
        (fun _ => [0]) [] a) :=
  c9_combined_adjacency_set_semantics 2 1 (fun a b => ((a * 100 + b : ℕ) : ℚ))
    (fun _ => [0]) [] (by norm_num) (by norm_num)
    (fun i => ⟨List.nodup_singleton 0, fun c hcc => by
      rw [List.mem_singleton] at hcc
      rw [hcc]
      norm_num [nFrozenOf]⟩)
    (fun p hp => by simp at hp)

/-! ## Contact count: truncation vs rounding (C4) -/

/-- n_contacts of the source: max(1, int(pool_size * 0.1)).  For every pool
size in the float64-exact range (pool_size below 2^52) the float truncation
int(pool_size * 0.1) equals natural floor division pool_size / 10, which is
how it is modelled. -/
def nContactsCode (pool : ℕ) : ℕ := max 1 (pool / 10)

/-- Modelled from the spec wording: n_contacts = max(1, round(0.1 x pool_size)),
with round as rounding to the nearest integer (the claim's reading). -/
def nContactsSpec (pool : ℕ) : ℕ := max 1 (round ((pool : ℚ) / 10)).toNat

/-- C4 counterexample: at pool_size = 15 the code draws max(1, int(1.5)) = 1
contact per pool oscillator while the claim's formula gives max(1, round(1.5))
= 2; with K = optimal_K(15) = 2 and n_frozen = 13 the clamped counts are 1
and 2 respectively. -/
theorem c4_counterexample :
    nContactsCode 15 = 1 ∧ nContactsSpec 15 = 2 ∧
    min (nContactsCode 15) (nFrozenOf (optimalK 15)) = 1 ∧
    min (nContactsSpec 15) (nFrozenOf (optimalK 15)) = 2 := by
  have h1 : nContactsCode 15 = 1 := by norm_num [nContactsCode]
  have h2 : nContactsSpec 15 = 2 := by
    unfold nContactsSpec
    norm_num
    have hr : round ((3 : ℚ) / 2) = 2 := by
      rw [round_eq]
      norm_num
    rw [hr]
    rfl
  have h3 : nFrozenOf (optimalK 15) = 13 := by decide
  rw [h1, h2, h3]
  norm_num

/-- C4 amended: each pool oscillator is attached to exactly
min(n_contacts, n_frozen) distinct seed vertices with symmetric edges, where
n_contacts = max(1, int(0.1 x pool_size)) -- float truncation, not rounding. -/
theorem c4_pool_contact_attachment (K pool : ℕ) (dist : ℕ → ℕ → α)
    (contacts : ℕ → List ℕ) (mesh : List (ℕ × ℕ)) (hK : 2 ≤ K)
    (hc : ∀ i, (contacts i).Nodup ∧ ∀ c ∈ contacts i, c < nFrozenOf K)
    (hlen : ∀ i, nFrozenOf K ≤ i → i < nFrozenOf K + pool →
      (contacts i).length = min (nContactsCode pool) (nFrozenOf K))
    (hm : ∀ p ∈ mesh, p.1 ≠ p.2 ∧ nFrozenOf K ≤ p.1 ∧ p.1 < nFrozenOf K + pool ∧
      nFrozenOf K ≤ p.2 ∧ p.2 < nFrozenOf K + pool)
    (i : ℕ) (hi1 : nFrozenOf K ≤ i) (hi2 : i < nFrozenOf K + pool) :
    ((assembleAdj (nFrozenOf K) pool (buildCrystalAdj (nFrozenOf K) dist)
        contacts mesh i).filter (fun c => decide (c < nFrozenOf K)) = contacts i) ∧
    ((assembleAdj (nFrozenOf K) pool (buildCrystalAdj (nFrozenOf K) dist)
        contacts mesh i).filter (fun c => decide (c < nFrozenOf K))).length =
      min (nContactsCode pool) (nFrozenOf K) ∧
    (contacts i).Nodup ∧
    (∀ c ∈ contacts i,
      c ∈ assembleAdj (nFrozenOf K) pool (buildCrystalAdj (nFrozenOf K) dist)
        contacts mesh i ∧
      i ∈ assembleAdj (nFrozenOf K) pool (buildCrystalAdj (nFrozenOf K) dist)
        contacts mesh c) := by
  have hcf : ∀ k, contactsFold (nFrozenOf K) pool contacts
      (baseAdj (nFrozenOf K) (buildCrystalAdj (nFrozenOf K) dist)) k =
      (baseAdj (nFrozenOf K) (buildCrystalAdj (nFrozenOf K) dist)) k ++
        (if k ∈ List.range' (nFrozenOf K) pool then contacts k
          else (List.range' (nFrozenOf K) pool).filter
            (fun q => decide (k ∈ contacts q))) := by
    intro k
    unfold contactsFold
    exact contactsOuter (nFrozenOf K) contacts hc (List.range' (nFrozenOf K) pool)
      (List.nodup_range' (nFrozenOf K) pool)
      (fun q hq => by rw [List.mem_range'_1] at hq; omega) _ k
  have hpm : contactsFold (nFrozenOf K) pool contacts
      (baseAdj (nFrozenOf K) (buildCrystalAdj (nFrozenOf K) dist)) i = contacts i := by
    rw [hcf i]
    unfold baseAdj
    rw [if_neg (by omega), if_pos (by rw [List.mem_range'_1]; omega), List.nil_append]
  have hfilt : (assembleAdj (nFrozenOf K) pool (buildCrystalAdj (nFrozenOf K) dist)
      contacts mesh i).filter (fun c => decide (c < nFrozenOf K)) = contacts i := by
    unfold assembleAdj
    rw [meshFold_filter (nFrozenOf K) mesh
      (fun p hp => ⟨(hm p hp).1, (hm p hp).2.1, (hm p hp).2.2.2.1⟩) _ i, hpm]
    exact List.filter_eq_self.mpr (fun c hcc => by
      simp only [decide_eq_true_eq]
      exact (hc i).2 c hcc)
  refine ⟨hfilt, by rw [hfilt]; exact hlen i hi1 hi2, (hc i).1, ?_⟩
  intro c hcc
  have hcn2 : c < nFrozenOf K := (hc i).2 c hcc
  constructor
  · unfold assembleAdj
    apply meshFold_mono
    rw [hpm]
    exact hcc
  · unfold assembleAdj
    apply meshFold_mono
    rw [hcf c]
    apply List.mem_append_right
    rw [if_neg (show ¬ c ∈ List.range' (nFrozenOf K) pool from fun h => by
      rw [List.mem_range'_1] at h; omega)]
    rw [List.mem_filter, List.mem_range'_1]
    exact ⟨⟨hi1, hi2⟩, by simpa using hcc⟩

/-- Witness for the amended C4 at K = 2, pool = 1, contact list [5]. -/
theorem c4_pool_contact_attachment_witness :
    ((assembleAdj (nFrozenOf 2) 1
        (buildCrystalAdj (nFrozenOf 2) (fun a b => ((a * 100 + b : ℕ) : ℚ)))
        (fun _ => [5]) [] 13).filter (fun c => decide (c < nFrozenOf 2)) =
      [5]) ∧
    ((assembleAdj (nFrozenOf 2) 1
        (buildCrystalAdj (nFrozenOf 2) (fun a b => ((a * 100 + b : ℕ) : ℚ)))
        (fun _ => [5]) [] 13).filter (fun c => decide (c < nFrozenOf 2))).length =
      min (nContactsCode 1) (nFrozenOf 2) ∧
    ([5] : List ℕ).Nodup ∧
    (∀ c ∈ ([5] : List ℕ),
      c ∈ assembleAdj (nFrozenOf 2) 1
        (buildCrystalAdj (nFrozenOf 2) (fun a b => ((a * 100 + b : ℕ) : ℚ)))
        (fun _ => [5]) [] 13 ∧
      13 ∈ assembleAdj (nFrozenOf 2) 1
        (buildCrystalAdj (nFrozenOf 2) (fun a b => ((a * 100 + b : ℕ) : ℚ)))
        (fun _ => [5]) [] c) :=
  c4_pool_contact_attachment 2 1 (fun a b => ((a * 100 + b : ℕ) : ℚ))
    (fun _ => [5]) [] (by norm_num)
    (fun i => ⟨List.nodup_singleton 5, fun c hcc => by
      rw [List.mem_singleton] at hcc
      rw [hcc]
      norm_num [nFrozenOf]⟩)
    (fun i _ _ => by norm_num [nContactsCode, nFrozenOf])
    (fun p hp => by simp at hp)
    13 (by norm_num [nFrozenOf]) (by norm_num [nFrozenOf])

end Assembly

/-! ## Full per-trial run of test_fault_tolerance (and run_geometry) -/

section Trial

variable {α : Type} [LinearOrderedField α] [FloorRing α]

/-- Initial phase vector: frozen at 0, pool entries from the uniform draws
(phases = np.zeros(n_total); phases[n_frozen:] = uniform draws). -/
def initPhases (nFrozen : ℕ) (draws : ℕ → α) : ℕ → α :=
  fun i => if i < nFrozen then 0 else draws i

/-- One trial of test_fault_tolerance: select parameters, build the crystal
adjacency and the combined pool network from the supplied random draws, then
run the convergence loop with wave_step.  The corruption argument is accepted
(signature test_fault_tolerance(pool_size, corruption=0.5, ...)) and, exactly
as in the source body, never read: no phase is ever reset from it. -/
def testFaultTrial (cohFn : (ℕ → α) → α) (sinA : α → α) (piA : α)
    (corruption : α) (pool maxSteps : ℕ) (target : α) (dist : ℕ → ℕ → α)
    (draws : ℕ → α) (contacts : ℕ → List ℕ) (mesh : List (ℕ × ℕ)) :
    Except String (RunResult α) :=
  (entanglementParams (pool : ℤ)).map fun prm =>
    convergenceLoop cohFn
      (waveStep piA sinA (prm.amplitude : α) prm.rhythm (crystalLayers prm.K)
        (nFrozenOf prm.K) (nFrozenOf prm.K + pool)
        (assembleAdj (nFrozenOf prm.K) pool
          (buildCrystalAdj (nFrozenOf prm.K) dist) contacts mesh))
      (fun _ => 0) target maxSteps (initPhases (nFrozenOf prm.K) draws)

/-- compare.run_geometry: textually the same construction and loop (fresh
random pool initialization instead of a corrupted state, corrections 0). -/
def runGeometry (cohFn : (ℕ → α) → α) (sinA : α → α) (piA : α)
    (pool maxSteps : ℕ) (target : α) (dist : ℕ → ℕ → α) (draws : ℕ → α)
    (contacts : ℕ → List ℕ) (mesh : List (ℕ × ℕ)) :
    Except String (RunResult α) :=
  (entanglementParams (pool : ℤ)).map fun prm =>
    convergenceLoop cohFn
      (waveStep piA sinA (prm.amplitude : α) prm.rhythm (crystalLayers prm.K)
        (nFrozenOf prm.K) (nFrozenOf prm.K + pool)
        (assembleAdj (nFrozenOf prm.K) pool
          (buildCrystalAdj (nFrozenOf prm.K) dist) contacts mesh))
      (fun _ => 0) target maxSteps (initPhases (nFrozenOf prm.K) draws)

/-- C1: the trial result of test_fault_tolerance does not depend on the
corruption argument in any way -- holding every random draw and every other
parameter fixed, two runs with different corruption fractions produce
identical results, because the source never reads the parameter and resets no
phase before resuming the loop. -/
theorem c1_corruption_parameter_unused (cohFn : (ℕ → α) → α) (sinA : α → α)
    (piA corr1 corr2 : α) (pool maxSteps : ℕ) (target : α) (dist : ℕ → ℕ → α)
    (draws : ℕ → α) (contacts : ℕ → List ℕ) (mesh : List (ℕ × ℕ)) :
    testFaultTrial cohFn sinA piA corr1 pool maxSteps target dist draws contacts mesh =
    testFaultTrial cohFn sinA piA corr2 pool maxSteps target dist draws contacts mesh :=
  rfl

end Trial

end EntEngine
